import Mathlib

/-!
Verification development for the `silva` concurrent tree arena
(`src/src/arena/raw.rs`, `src/src/arena/bucket.rs`, `src/src/arena/slot.rs`,
`src/src/node.rs`, `src/src/index.rs`, `src/src/lib.rs`).

The embedding targets a 64-bit machine word (`usize::BITS = 64`), mirroring
the constants in `arena/raw.rs`.  Machine integers are modelled by `Nat`;
every arithmetic operation performed by the source stays in range for the
inputs we consider, which is proved where it matters.
-/

namespace Silva

open scoped List

/-- `SLOTS` from `arena/raw.rs`: `usize::BITS as usize` on a 64-bit target. -/
def SLOTS : Nat := 64

/-- `ZERO_SLOT` from `arena/raw.rs`: `SLOTS - 1`. -/
def ZERO_SLOT : Nat := SLOTS - 1

/-- Bit length of `x`, computed with explicit fuel (64 bits suffice for
every `usize` value); agrees with `Nat.size` on `x < 2 ^ fuel`
(`bitlen_eq_size` below). -/
def bitlen : Nat → Nat → Nat
  | 0, _ => 0
  | fuel + 1, x => if x = 0 then 0 else bitlen fuel (x / 2) + 1

/-- Rust `usize::leading_zeros` on a 64-bit target: `64 - bitlength x`.
Faithful for every `x < 2 ^ 64`, which holds at all use sites below. -/
def leadingZeros (x : Nat) : Nat := SLOTS - bitlen 64 x

/-- `ZERO_BUCKET` from `arena/raw.rs`: `SLOTS - ZERO_SLOT.leading_zeros()`. -/
def ZERO_BUCKET : Nat := SLOTS - leadingZeros ZERO_SLOT

/-- `BUCKETS` from `arena/raw.rs`: `SLOTS - 1 - ZERO_BUCKET`. -/
def BUCKETS : Nat := SLOTS - 1 - ZERO_BUCKET

/-- `isize::MAX as usize` on a 64-bit target. -/
def isizeMax : Nat := 2 ^ 63 - 1

/-- `MAX_INDEX` from `arena/raw.rs`: `isize::MAX as usize - SLOTS`. -/
def MAX_INDEX : Nat := isizeMax - SLOTS

/-- `Location` from `arena/raw.rs`: a `(bucket, entry)` pair. -/
structure Location where
  bucket : Nat
  entry : Nat
deriving DecidableEq

/-- `Location::bucket` from `arena/raw.rs` (the argument is the already
shifted index): `BUCKETS - (index + 1).leading_zeros()`. -/
def Location.bucketOf (index : Nat) : Nat := BUCKETS - leadingZeros (index + 1)

/-- `Location::capacity` from `arena/raw.rs`: `1 << (bucket + ZERO_BUCKET)`.
The shift never overflows `usize` at the use sites (`bucket < BUCKETS`). -/
def Location.capacity (bucket : Nat) : Nat := 2 ^ (bucket + ZERO_BUCKET)

/-- `Location::new_unchecked` from `arena/raw.rs`: shift the index by
`ZERO_SLOT`, compute the bucket, subtract the skipped slots.  The caller
guarantees `index ≤ MAX_INDEX`; in that range the `usize` subtraction never
underflows (see `Location.new_unchecked_eq`), so `Nat` subtraction is
faithful. -/
def Location.new_unchecked (index : Nat) : Location :=
  let idx := index + ZERO_SLOT
  let bucket := Location.bucketOf idx
  { bucket := bucket, entry := idx - (Location.capacity bucket - 1) }

theorem size_succ_div_two (x : Nat) (hx : x ≠ 0) :
    Nat.size (x / 2) + 1 = Nat.size x := by
  have hpos : 0 < Nat.size x := Nat.size_pos.mpr (Nat.pos_of_ne_zero hx)
  have hup : x < 2 ^ Nat.size x := Nat.size_le.mp le_rfl
  have hlow : 2 ^ (Nat.size x - 1) ≤ x := Nat.lt_size.mp (by omega)
  have h1 : Nat.size (x / 2) ≤ Nat.size x - 1 := by
    apply Nat.size_le.mpr
    have hsplit : (2 : Nat) ^ Nat.size x = 2 ^ (Nat.size x - 1) * 2 := by
      rw [← pow_succ]
      congr 1
      omega
    omega
  have h2 : Nat.size x - 1 ≤ Nat.size (x / 2) := by
    rcases Nat.eq_or_lt_of_le hpos with h | h
    · omega
    · have : Nat.size x - 1 - 1 < Nat.size (x / 2) := by
        apply Nat.lt_size.mpr
        have hsplit : (2 : Nat) ^ (Nat.size x - 1) = 2 ^ (Nat.size x - 1 - 1) * 2 := by
          rw [← pow_succ]
          congr 1
          omega
        omega
      omega
  omega

theorem bitlen_eq_size : ∀ (fuel x : Nat), x < 2 ^ fuel → bitlen fuel x = Nat.size x := by
  intro fuel
  induction fuel with
  | zero =>
    intro x hx
    have : x = 0 := by simpa using hx
    subst this
    rw [Nat.size_zero]
    rfl
  | succ fuel ih =>
    intro x hx
    by_cases h0 : x = 0
    · subst h0
      rw [Nat.size_zero]
      rfl
    · show (if x = 0 then 0 else bitlen fuel (x / 2) + 1) = Nat.size x
      rw [if_neg h0]
      have hdiv : x / 2 < 2 ^ fuel := by
        have hsplit : (2 : Nat) ^ (fuel + 1) = 2 ^ fuel * 2 := pow_succ 2 fuel
        omega
      rw [ih (x / 2) hdiv, size_succ_div_two x h0]

theorem ZERO_BUCKET_eq : ZERO_BUCKET = 6 := by decide

theorem BUCKETS_eq : BUCKETS = 57 := by decide

theorem MAX_INDEX_eq : MAX_INDEX = 2 ^ 63 - 65 := by
  simp [MAX_INDEX, isizeMax, SLOTS]

theorem size_bounds (i : Nat) (hi : i ≤ MAX_INDEX) :
    7 ≤ Nat.size (i + 64) ∧ Nat.size (i + 64) ≤ 63 := by
  constructor
  · exact Nat.lt_size.mpr (by norm_num)
  · apply Nat.size_le.mpr
    have h := MAX_INDEX_eq
    have h2 : (65 : Nat) ≤ 2 ^ 63 := by norm_num
    omega

/-- Closed form of the location function in the valid range: for
`i ≤ MAX_INDEX`, the bucket is `Nat.size (i + 64) - 7` and the entry is
`(i + 64) - 2 ^ (Nat.size (i + 64) - 1)`. -/
theorem Location.new_unchecked_eq (i : Nat) (hi : i ≤ MAX_INDEX) :
    Location.new_unchecked i =
      { bucket := Nat.size (i + 64) - 7,
        entry := (i + 64) - 2 ^ (Nat.size (i + 64) - 1) } := by
  obtain ⟨hlo, hhi⟩ := size_bounds i hi
  have hzs : ZERO_SLOT = 63 := rfl
  have hshift : i + ZERO_SLOT + 1 = i + 64 := by omega
  have hb : Location.bucketOf (i + ZERO_SLOT) = Nat.size (i + 64) - 7 := by
    unfold Location.bucketOf leadingZeros
    rw [hshift]
    have hlt : i + 64 < 2 ^ 64 := by
      have h1 : (2 : Nat) ^ 64 = 2 ^ 63 * 2 := pow_succ 2 63
      have h2 := MAX_INDEX_eq
      have h3 : (65 : Nat) ≤ 2 ^ 63 := by norm_num
      omega
    rw [bitlen_eq_size 64 (i + 64) hlt]
    have hB : BUCKETS = 57 := BUCKETS_eq
    have hS : SLOTS = 64 := by rfl
    omega
  have hcap : Location.capacity (Nat.size (i + 64) - 7) =
      2 ^ (Nat.size (i + 64) - 1) := by
    unfold Location.capacity
    rw [ZERO_BUCKET_eq]
    congr 1
    omega
  have hpow_le : 2 ^ (Nat.size (i + 64) - 1) ≤ i + 64 := by
    exact Nat.lt_size.mp (by omega)
  have hpow_pos : 1 ≤ 2 ^ (Nat.size (i + 64) - 1) := Nat.one_le_two_pow
  show Location.mk (Location.bucketOf (i + ZERO_SLOT))
      (i + ZERO_SLOT - (Location.capacity (Location.bucketOf (i + ZERO_SLOT)) - 1)) = _
  rw [hb, hcap]
  have hz : ZERO_SLOT = 63 := by rfl
  congr 1
  omega

theorem size_eq_succ {n m : Nat} (h1 : 2 ^ m ≤ n) (h2 : n < 2 ^ (m + 1)) :
    Nat.size n = m + 1 :=
  le_antisymm (Nat.size_le.mpr h2) (Nat.succ_le_of_lt (Nat.lt_size.mpr h1))

theorem capacity_eq (b : Nat) : Location.capacity b = 2 ^ (b + 6) := by
  unfold Location.capacity
  rw [ZERO_BUCKET_eq]

theorem sum_pow_aux (n : Nat) :
    (∑ b ∈ Finset.range n, 2 ^ (b + 6)) + 64 = 2 ^ (n + 6) := by
  induction n with
  | zero => simp
  | succ n ih =>
    rw [Finset.sum_range_succ]
    have h1 : (2 : Nat) ^ (n + 6 + 1) = 2 ^ (n + 6) * 2 := pow_succ 2 (n + 6)
    have h2 : n + 1 + 6 = n + 6 + 1 := by omega
    rw [h2, h1]
    omega

theorem sum_capacities : (∑ b ∈ Finset.range BUCKETS, Location.capacity b) = MAX_INDEX + 1 := by
  simp only [capacity_eq, BUCKETS_eq]
  have h := sum_pow_aux 57
  have h63 : (2 : Nat) ^ (57 + 6) = 2 ^ 63 := by norm_num
  have h65 : (65 : Nat) ≤ 2 ^ 63 := by norm_num
  rw [MAX_INDEX_eq]
  omega

/-- Every valid index falls inside the table: bucket in range and entry
below the bucket's capacity. -/
theorem location_in_range (i : Nat) (hi : i ≤ MAX_INDEX) :
    (Location.new_unchecked i).bucket < BUCKETS ∧
      (Location.new_unchecked i).entry <
        Location.capacity (Location.new_unchecked i).bucket := by
  obtain ⟨hlo, hhi⟩ := size_bounds i hi
  rw [Location.new_unchecked_eq i hi]
  have hcap : Location.capacity (Nat.size (i + 64) - 7) =
      2 ^ (Nat.size (i + 64) - 1) := by
    rw [capacity_eq]
    congr 1
    omega
  dsimp only
  refine ⟨by rw [BUCKETS_eq]; omega, ?_⟩
  rw [hcap]
  have hub : i + 64 < 2 ^ Nat.size (i + 64) := Nat.size_le.mp le_rfl
  have hsplit : (2 : Nat) ^ Nat.size (i + 64) = 2 ^ (Nat.size (i + 64) - 1) * 2 := by
    rw [← pow_succ]
    congr 1
    omega
  omega

theorem boundary_lo (b : Nat) (hb : b < BUCKETS) :
    Location.new_unchecked (SLOTS * (2 ^ b - 1)) = ⟨b, 0⟩ := by
  rw [BUCKETS_eq] at hb
  have hpow : (2 : Nat) ^ (b + 6) = 2 ^ b * 64 := by
    rw [pow_add]; norm_num
  have hb1 : (1 : Nat) ≤ 2 ^ b := Nat.one_le_two_pow
  have hmono : (2 : Nat) ^ b ≤ 2 ^ 56 := Nat.pow_le_pow_right (by norm_num) (by omega)
  have h62 : (64 : Nat) * 2 ^ 56 = 2 ^ 62 := by norm_num
  have h63 : (2 : Nat) ^ 63 = 2 ^ 62 * 2 := by norm_num
  have hS : SLOTS = 64 := rfl
  have hle : SLOTS * (2 ^ b - 1) ≤ MAX_INDEX := by
    rw [MAX_INDEX_eq, hS]
    omega
  have hx : SLOTS * (2 ^ b - 1) + 64 = 2 ^ (b + 6) := by
    rw [hS, hpow]; omega
  have hsz : Nat.size (SLOTS * (2 ^ b - 1) + 64) = b + 7 := by
    rw [hx]
    exact size_eq_succ le_rfl (Nat.pow_lt_pow_right (by norm_num) (by omega))
  rw [Location.new_unchecked_eq _ hle, hsz]
  have he : (2 : Nat) ^ (b + 7 - 1) = 2 ^ (b + 6) := by congr 1
  refine congrArg₂ Location.mk (by omega) ?_
  rw [he, ← hx]
  omega

theorem boundary_hi (b : Nat) (hb : b < BUCKETS) :
    Location.new_unchecked (SLOTS * (2 ^ (b + 1) - 1) - 1) =
      ⟨b, Location.capacity b - 1⟩ := by
  rw [BUCKETS_eq] at hb
  have hpow : (2 : Nat) ^ (b + 7) = 2 ^ (b + 1) * 64 := by
    rw [show b + 7 = b + 1 + 6 by omega, pow_add]; norm_num
  have hpow6 : (2 : Nat) ^ (b + 7) = 2 ^ (b + 6) * 2 := by
    rw [← pow_succ]
  have hb1 : (2 : Nat) ≤ 2 ^ (b + 1) := by
    calc (2 : Nat) = 2 ^ 1 := rfl
    _ ≤ 2 ^ (b + 1) := Nat.pow_le_pow_right (by norm_num) (by omega)
  have hb6 : (1 : Nat) ≤ 2 ^ (b + 6) := Nat.one_le_two_pow
  have hmono : (2 : Nat) ^ (b + 1) ≤ 2 ^ 57 := Nat.pow_le_pow_right (by norm_num) (by omega)
  have h63 : (64 : Nat) * 2 ^ 57 = 2 ^ 63 := by norm_num
  have hS : SLOTS = 64 := rfl
  have hle : SLOTS * (2 ^ (b + 1) - 1) - 1 ≤ MAX_INDEX := by
    rw [MAX_INDEX_eq, hS]
    omega
  have hx : SLOTS * (2 ^ (b + 1) - 1) - 1 + 64 = 2 ^ (b + 7) - 1 := by
    rw [hS, hpow]
    omega
  have hsz : Nat.size (SLOTS * (2 ^ (b + 1) - 1) - 1 + 64) = b + 7 := by
    rw [hx]
    exact size_eq_succ (by omega) (by omega)
  rw [Location.new_unchecked_eq _ hle, hsz]
  have he : (2 : Nat) ^ (b + 7 - 1) = 2 ^ (b + 6) := by congr 1
  refine congrArg₂ Location.mk (by omega) ?_
  rw [he, hx, capacity_eq]
  omega

theorem boundary_max :
    Location.new_unchecked MAX_INDEX = ⟨BUCKETS - 1, 2 ^ 62 - 1⟩ := by
  have hx : MAX_INDEX + 64 = 2 ^ 63 - 1 := by
    rw [MAX_INDEX_eq]
    have : (65 : Nat) ≤ 2 ^ 63 := by norm_num
    omega
  have hsz : Nat.size (MAX_INDEX + 64) = 63 := by
    rw [hx]
    exact size_eq_succ (by norm_num) (by norm_num)
  rw [Location.new_unchecked_eq _ le_rfl, hsz]
  refine congrArg₂ Location.mk (by rw [BUCKETS_eq]) ?_
  rw [hx]
  norm_num

/-- C5: the pure `Location` function satisfies the geometric layout:
bucket `b` holds `SLOTS * 2 ^ b` slots (so bucket 0 holds `W = SLOTS`
slots), the capacities of all `BUCKETS` buckets sum to `MAX_INDEX + 1`,
every index `i ≤ MAX_INDEX` maps to a bucket below `BUCKETS` with an entry
below that bucket's capacity, and the geometric boundary indices
`SLOTS * (2 ^ b - 1)` and `SLOTS * (2 ^ (b + 1) - 1) - 1` (that is
`0, W - 1, W, 3W - 1, 3W, 7W - 1, 7W, …`) land in bucket `b` at entry `0`
resp. `capacity b - 1`, with `MAX_INDEX` landing in the last bucket at its
last entry. -/
theorem location_geometric_layout :
    (∀ b, b < BUCKETS → Location.capacity b = SLOTS * 2 ^ b) ∧
    (∑ b ∈ Finset.range BUCKETS, Location.capacity b) = MAX_INDEX + 1 ∧
    (∀ i, i ≤ MAX_INDEX →
      (Location.new_unchecked i).bucket < BUCKETS ∧
      (Location.new_unchecked i).entry <
        Location.capacity (Location.new_unchecked i).bucket) ∧
    (∀ b, b < BUCKETS →
      Location.new_unchecked (SLOTS * (2 ^ b - 1)) = ⟨b, 0⟩ ∧
      Location.new_unchecked (SLOTS * (2 ^ (b + 1) - 1) - 1) =
        ⟨b, Location.capacity b - 1⟩) ∧
    Location.new_unchecked MAX_INDEX = ⟨BUCKETS - 1, 2 ^ 62 - 1⟩ := by
  refine ⟨?_, sum_capacities, location_in_range, ?_, boundary_max⟩
  · intro b _
    rw [capacity_eq, pow_add]
    have hS : SLOTS = 64 := rfl
    have h6 : (2 : Nat) ^ 6 = 64 := by norm_num
    rw [h6, hS, Nat.mul_comm]
  · intro b hb
    exact ⟨boundary_lo b hb, boundary_hi b hb⟩

/-- Witness for C5 at concrete inputs: bucket 2, index 100, and the
boundary pair of bucket 2 (`3W = 192` and `7W - 1 = 447`). -/
theorem location_geometric_layout_witness :
    Location.capacity 2 = SLOTS * 2 ^ 2 ∧
    (Location.new_unchecked 100).bucket < BUCKETS ∧
    Location.new_unchecked (SLOTS * (2 ^ 2 - 1)) = ⟨2, 0⟩ ∧
    Location.new_unchecked (SLOTS * (2 ^ 3 - 1) - 1) =
      ⟨2, Location.capacity 2 - 1⟩ := by
  have hb : (2 : Nat) < BUCKETS := by rw [BUCKETS_eq]; norm_num
  have hi : (100 : Nat) ≤ MAX_INDEX := by
    rw [MAX_INDEX_eq]
    have : (65 : Nat) + 100 ≤ 2 ^ 63 := by norm_num
    omega
  refine ⟨location_geometric_layout.1 2 hb,
    (location_geometric_layout.2.2.1 100 hi).1,
    (location_geometric_layout.2.2.2.1 2 hb).1,
    (location_geometric_layout.2.2.2.1 2 hb).2⟩

/-!
## The arena state model

Single-threaded operational model of `Arena<T>` (`arena/raw.rs`) together
with the node links of `node.rs`.  References to nodes are represented by
their logical (0-based) index, which in the source is `Index.get()`; the
`NonZero` offset-by-one encoding of `Index` is dropped here because every
operation immediately converts through `Index::get`/`new_unchecked`.
Storage cells are addressed directly by logical index; the bucket gate of
`Bucket::get` (a `None` entries pointer) is modelled by the `alloc` flag of
the index's bucket.
-/

/-- The node of `node.rs`: payload plus links.  `parent`, `child` and
`next` hold optional node references (null pointers are `none`). -/
structure Node (T : Type) where
  index : Nat
  parent : Option Nat
  child : Option Nat
  next : Option Nat
  value : T
deriving DecidableEq

/-- The state of one storage cell (`Slot`/`Chunk` of `arena/slot.rs`):
`Uninit (0b00)`, `Middle (0b01)` or `Active/Init (0b11)` holding a node. -/
inductive SlotCell (T : Type) where
  | uninit
  | middle
  | active (node : Node T)
deriving DecidableEq

/-- The errors the arena signals (all of them panics in the source). -/
inductive Err where
  | capacityOverflow
  | foreignParent
deriving DecidableEq

/-- `Arena<T>` of `arena/raw.rs`: storage cells, per-bucket allocation
flags (`Bucket.entries` non-null), the atomic index counter and the live
count. -/
structure Arena (T : Type) where
  slots : Nat → SlotCell T
  alloc : Nat → Bool
  index : Nat
  count : Nat

/-- `Arena::new` / `Arena::EMPTY`: all buckets null, counters zero.  All
cells read as `Uninit` because buckets are allocated zeroed. -/
def Arena.empty (T : Type) : Arena T :=
  { slots := fun _ => .uninit, alloc := fun _ => false, index := 0, count := 0 }

/-- Read the node stored at a logical index, ignoring the bucket gate
(the state tag check of `Chunk::acquire`). -/
def Arena.nodeAt (s : Arena T) (i : Nat) : Option (Node T) :=
  match s.slots i with
  | .active n => some n
  | _ => none

/-- `Arena::get` (`arena/raw.rs` line 71): compute the `Location`, read the
bucket (absent if its entries pointer is null), then read the slot through
its state tag — only `Active` yields a node. -/
def Arena.get (s : Arena T) (i : Nat) : Option (Node T) :=
  let loc := Location.new_unchecked i
  if s.alloc loc.bucket then s.nodeAt i else none

/-- `Arena::next_index` (`arena/raw.rs` line 78): `fetch_add(1)`; if the
old value exceeds `MAX_INDEX`, `fetch_sub(1)` (restoring the counter) and
panic with capacity overflow. -/
def Arena.next_index (s : Arena T) : Except Err Nat × Arena T :=
  let old := s.index
  let s1 : Arena T := { s with index := s.index + 1 }
  if old ≤ MAX_INDEX then (.ok old, s1)
  else (.error .capacityOverflow, { s1 with index := s1.index - 1 })

/-- Overwrite one storage cell. -/
def Arena.setSlot (s : Arena T) (i : Nat) (c : SlotCell T) : Arena T :=
  { s with slots := fun j => if j = i then c else s.slots j }

/-- `Arena::add_node` (`arena/raw.rs` line 120): allocate the index's
bucket if needed (`Bucket::acquire`), construct the node in place
(`Node::new` with `child = next = null`), splice it onto the parent's
child list (the new node's `next` becomes the parent's previous head and
the parent's `child` becomes the new node — the final state all historical
variants of the write protocol agree on), and bump the live count.

When `parent` is `some p` but `p` holds no active node the function leaves
the state unchanged; in the source this cannot arise because the parent is
passed as a live `&Node` reference, and every theorem below excludes it by
hypothesis. -/
def Arena.add_node (s : Arena T) (parent : Option Nat) (i : Nat) (v : T) : Arena T :=
  let loc := Location.new_unchecked i
  let s1 : Arena T := { s with alloc := fun b => b == loc.bucket || s.alloc b }
  match parent with
  | none =>
    let s2 := s1.setSlot i (.active ⟨i, none, none, none, v⟩)
    { s2 with count := s2.count + 1 }
  | some p =>
    match s1.slots p with
    | .active pn =>
      let s2 := s1.setSlot p (.active { pn with child := some i })
      let s3 := s2.setSlot i (.active ⟨i, some p, none, pn.child, v⟩)
      { s3 with count := s3.count + 1 }
    | _ => s

/-- `Arena::push_with`/`Arena::push` (`arena/raw.rs` line 88, `arena.rs`
line 79): take the next index, then `add_node`.  Returns the new node's
index on success. -/
def Arena.push (s : Arena T) (parent : Option Nat) (v : T) : Except Err Nat × Arena T :=
  match s.next_index with
  | (.ok i, s1) => (.ok i, s1.add_node parent i v)
  | (.error e, s1) => (.error e, s1)

/-- The `while !is_alloc` loop of `Arena::reserve` (`arena/raw.rs`
line 141): starting at bucket `b`, allocate buckets downwards until an
already-allocated bucket is found or bucket 0 is done. -/
def reserveLoop (alloc : Nat → Bool) : Nat → (Nat → Bool)
  | 0 => if alloc 0 then alloc else fun j => j == 0 || alloc j
  | b + 1 =>
    if alloc (b + 1) then alloc
    else reserveLoop (fun j => j == b + 1 || alloc j) b

/-- `Arena::reserve` (`arena/raw.rs` line 133): target index is
`count.saturating_add(additional).min(MAX_INDEX)` (saturation never fires
in the `Nat` model), then run the downward allocation loop from the target
index's bucket. -/
def Arena.reserve (s : Arena T) (additional : Nat) : Arena T :=
  let idx := min (s.count + additional) MAX_INDEX
  let loc := Location.new_unchecked idx
  { s with alloc := reserveLoop s.alloc loc.bucket }

/-- `Arena::with_capacity` (`arena/raw.rs` line 58): allocate every bucket
up to and including the bucket of `capacity.min(MAX_INDEX)`. -/
def Arena.with_capacity (T : Type) (capacity : Nat) : Arena T :=
  let loc := Location.new_unchecked (min capacity MAX_INDEX)
  { Arena.empty T with alloc := fun b => b ≤ loc.bucket }

/-- `Arena::capacity` (`arena/raw.rs` line 151): sum the capacities of the
allocated buckets. -/
def Arena.capacity (s : Arena T) : Nat :=
  (List.range BUCKETS).foldl
    (fun total b => if s.alloc b then total + Location.capacity b else total) 0

/-- `Arena::count` (`arena/raw.rs` line 166). -/
def Arena.liveCount (s : Arena T) : Nat := s.count

theorem Arena.push_ok_proj (s : Arena T) (parent : Option Nat) (v : T)
    (h : s.index ≤ MAX_INDEX) :
    (s.push parent v).1 = .ok s.index ∧
      (s.push parent v).2 =
        Arena.add_node { s with index := s.index + 1 } parent s.index v := by
  simp [Arena.push, Arena.next_index, h]

theorem Arena.push_err (s : Arena T) (parent : Option Nat) (v : T)
    (h : MAX_INDEX < s.index) :
    s.push parent v = (.error .capacityOverflow, s) := by
  have h2 : ¬ s.index ≤ MAX_INDEX := by omega
  simp [Arena.push, Arena.next_index, h2]

/-- The arena obtained by `n` root pushes of `()` starting from the empty
arena. -/
def pushedState : Nat → Arena Unit
  | 0 => Arena.empty Unit
  | n + 1 => ((pushedState n).push none ()).2

theorem pushedState_proj (n : Nat) (hn : n ≤ MAX_INDEX + 1) :
    (pushedState n).index = n ∧ (pushedState n).liveCount = n := by
  induction n with
  | zero => exact ⟨rfl, rfl⟩
  | succ n ih =>
    obtain ⟨hidx, hcnt⟩ := ih (by omega)
    have hle : (pushedState n).index ≤ MAX_INDEX := by omega
    have hstep := (Arena.push_ok_proj (pushedState n) none () hle).2
    show (((pushedState n).push none ()).2).index = n + 1 ∧
      (((pushedState n).push none ()).2).liveCount = n + 1
    rw [hstep]
    exact ⟨by simp [Arena.add_node, Arena.setSlot, hidx],
      by simp [Arena.liveCount, Arena.add_node, Arena.setSlot, Arena.liveCount] at hcnt ⊢; omega⟩

/-- C4: starting from an empty arena, each of the first `MAX_INDEX + 1`
single pushes succeeds (returning indices `0, …, MAX_INDEX` with
`count = index counter = n` after `n` pushes); the next push fails with
capacity overflow and hands back the state with the index counter rolled
back (so it equals the pre-push state, `count` still `MAX_INDEX + 1`), and
every subsequent push fails the same way. -/
theorem push_capacity_boundary :
    (∀ n, n ≤ MAX_INDEX + 1 →
      (pushedState n).index = n ∧ (pushedState n).liveCount = n) ∧
    (∀ m, m ≤ MAX_INDEX → ((pushedState m).push none ()).1 = .ok m) ∧
    (pushedState (MAX_INDEX + 1)).push none () =
      (.error .capacityOverflow, pushedState (MAX_INDEX + 1)) ∧
    (((pushedState (MAX_INDEX + 1)).push none ()).2).liveCount = MAX_INDEX + 1 ∧
    (((pushedState (MAX_INDEX + 1)).push none ()).2).push none () =
      (.error .capacityOverflow, pushedState (MAX_INDEX + 1)) := by
  have hfull := pushedState_proj (MAX_INDEX + 1) le_rfl
  have hgt : MAX_INDEX < (pushedState (MAX_INDEX + 1)).index := by
    rw [hfull.1]; omega
  have herr : (pushedState (MAX_INDEX + 1)).push none () =
      (.error .capacityOverflow, pushedState (MAX_INDEX + 1)) :=
    Arena.push_err _ none () hgt
  have hsnd : (((pushedState (MAX_INDEX + 1)).push none ()).2) =
      pushedState (MAX_INDEX + 1) := by rw [herr]
  refine ⟨fun n hn => pushedState_proj n hn, ?_, herr,
    by rw [hsnd]; exact hfull.2, by rw [hsnd]; exact herr⟩
  intro m hm
  have h := pushedState_proj m (by omega)
  have hle : (pushedState m).index ≤ MAX_INDEX := by rw [h.1]; omega
  have := (Arena.push_ok_proj (pushedState m) none () hle).1
  rw [this, h.1]

/-- Witness for C4: the third push from empty succeeds and returns
index 2, and after three pushes the live count is 3. -/
theorem push_capacity_boundary_witness :
    ((pushedState 2).push none ()).1 = .ok 2 ∧ (pushedState 3).liveCount = 3 := by
  have hM : MAX_INDEX = 2 ^ 63 - 65 := MAX_INDEX_eq
  have h65 : (65 : Nat) + 3 ≤ 2 ^ 63 := by norm_num
  exact ⟨push_capacity_boundary.2.1 2 (by omega),
    (push_capacity_boundary.1 3 (by omega)).2⟩

/-- The reservation step of `Arena::push_all` (`arena/raw.rs` line 99):
`self.index.fetch_update(|index| index.checked_add(values.len()).filter(|&n| n <= MAX_INDEX))`.
The closure yields the new counter value `index + n` only when it is
`≤ MAX_INDEX`; otherwise `fetch_update` leaves the counter unchanged and
the `expect` panics with capacity overflow.  On success the returned
origin is the old counter value.  (`checked_add` overflow also yields
`None`; in the `Nat` model that case is subsumed by the comparison.) -/
def Arena.push_all_reserve (s : Arena T) (n : Nat) : Except Err Nat × Arena T :=
  if s.index + n ≤ MAX_INDEX then (.ok s.index, { s with index := s.index + n })
  else (.error .capacityOverflow, s)

/-- `Arena::push_all` (`arena/raw.rs` line 94) up to the laziness of the
returned iterator: only the reservation runs eagerly; `n` is the exact
length of the value iterator. -/
def Arena.push_all (s : Arena T) (parent : Option Nat) (values : List T) :
    Except Err Nat × Arena T :=
  s.push_all_reserve values.length

/-- Advancing the lazy iterator returned by `push_all` `k` times: the
`i`-th advance runs `add_node(parent, origin + i, value_i)`
(`arena/raw.rs` line 107). -/
def Arena.push_all_advance (s : Arena T) (parent : Option Nat) (origin : Nat)
    (values : List T) (k : Nat) : Arena T :=
  ((values.take k).enum).foldl (fun st p => st.add_node parent (origin + p.1) p.2) s

/-- C3 counterexample: on the empty arena, `push_all` with an
exact-length iterator of `MAX_INDEX + 1` values reserves the indices
`0, …, MAX_INDEX`, every one of which is `≤ MAX_INDEX`, yet the operation
fails with capacity overflow — refuting "it succeeds whenever every
reserved index `origin, …, origin + n − 1` is `≤ MAX_INDEX`". -/
theorem push_all_exact_fill_fails :
    (∀ j, j < MAX_INDEX + 1 → 0 + j ≤ MAX_INDEX) ∧
    ((Arena.empty Unit).push_all none (List.replicate (MAX_INDEX + 1) ())).1 =
      .error .capacityOverflow := by
  refine ⟨fun j hj => by omega, ?_⟩
  have hn : (List.replicate (MAX_INDEX + 1) (() : Unit)).length = MAX_INDEX + 1 :=
    List.length_replicate MAX_INDEX.succ ()
  have hidx : (Arena.empty Unit).index = 0 := rfl
  show ((Arena.empty Unit).push_all_reserve
    (List.replicate (MAX_INDEX + 1) (() : Unit)).length).1 = _
  rw [hn]
  unfold Arena.push_all_reserve
  rw [if_neg (by rw [hidx]; omega)]

/-- C3 amended: `push_all` with an exact-length iterator of `n` values
reserves the `n` contiguous indices `[origin, origin + n)` in one atomic
compare-and-update step — on success it returns `origin` (the old counter
value) and sets the counter to `origin + n` in the same step, touching
nothing else — and it fails with CapacityOverflow, leaving the state
unchanged, exactly when the new counter value `origin + n` (one past the
last reserved index) would exceed `MAX_INDEX`. -/
theorem push_all_reservation (s : Arena T) (parent : Option Nat) (values : List T) :
    (s.index + values.length ≤ MAX_INDEX →
      s.push_all parent values =
        (.ok s.index, { s with index := s.index + values.length })) ∧
    (MAX_INDEX < s.index + values.length →
      s.push_all parent values = (.error .capacityOverflow, s)) := by
  unfold Arena.push_all Arena.push_all_reserve
  exact ⟨fun h => by rw [if_pos h], fun h => by rw [if_neg (by omega)]⟩

/-- Witness for C3's amended statement: a two-element `push_all` on the
empty arena returns origin 0 and advances the counter to 2. -/
theorem push_all_reservation_witness :
    (Arena.empty Unit).push_all none [(), ()] =
      (.ok 0, { Arena.empty Unit with index := 2 }) := by
  have hM : MAX_INDEX = 2 ^ 63 - 65 := MAX_INDEX_eq
  have h65 : (65 : Nat) + 2 ≤ 2 ^ 63 := by norm_num
  have h : (Arena.empty Unit).index + ([(), ()] : List Unit).length ≤ MAX_INDEX := by
    show 0 + 2 ≤ MAX_INDEX
    omega
  exact (push_all_reservation (Arena.empty Unit) none [(), ()]).1 h

theorem reserveLoop_already (al : Nat → Bool) (b : Nat) (h : al b = true) :
    reserveLoop al b = al := by
  cases b <;> simp [reserveLoop, h]

theorem reserveLoop_fresh (B : Nat) (al : Nat → Bool)
    (h : ∀ b', b' ≤ B → al b' = false) :
    ∀ j, reserveLoop al B j = (decide (j ≤ B) || al j) := by
  induction B generalizing al with
  | zero =>
    intro j
    have h0 : al 0 = false := h 0 le_rfl
    simp only [reserveLoop, h0, Bool.false_eq_true, if_false]
    cases j <;> simp
  | succ B ih =>
    intro j
    have hB1 : al (B + 1) = false := h (B + 1) le_rfl
    simp only [reserveLoop, hB1, Bool.false_eq_true, if_false]
    have h2 : ∀ b', b' ≤ B → ((b' == B + 1) || al b') = false := by
      intro b' hb'
      have hne : (b' == B + 1) = false := by
        simp only [beq_eq_false_iff_ne, ne_eq]
        omega
      rw [hne, h b' (by omega)]
      rfl
    rw [ih _ h2 j]
    by_cases h1 : j ≤ B
    · have h3 : j ≤ B + 1 := by omega
      simp [h1, h3]
    · by_cases h4 : j = B + 1
      · simp [h4]
      · have h5 : ¬ j ≤ B + 1 := by omega
        have h6 : (j == B + 1) = false := by
          simp only [beq_eq_false_iff_ne, ne_eq]
          omega
        simp [h1, h5, h6]

theorem foldl_capacity (al : Nat → Bool) (n acc : Nat) :
    (List.range n).foldl
        (fun total b => if al b then total + Location.capacity b else total) acc =
      acc + ∑ b ∈ Finset.range n, (if al b then Location.capacity b else 0) := by
  induction n generalizing acc with
  | zero => simp
  | succ n ih =>
    rw [List.range_succ, List.foldl_append, ih, Finset.sum_range_succ]
    by_cases h : al n <;> simp [h] <;> omega

theorem capacity_eq_sum (s : Arena T) :
    s.capacity =
      ∑ b ∈ Finset.range BUCKETS, (if s.alloc b then Location.capacity b else 0) := by
  unfold Arena.capacity
  rw [foldl_capacity]
  omega

theorem capacity_of_prefix (s : Arena T) (B : Nat) (hB : B < BUCKETS)
    (h : ∀ b, b < BUCKETS → (s.alloc b = true ↔ b ≤ B)) :
    s.capacity = 2 ^ (B + 7) - 64 := by
  rw [capacity_eq_sum]
  have hstep : ∀ b ∈ Finset.range BUCKETS,
      (if s.alloc b then Location.capacity b else 0) =
        (if b ≤ B then 2 ^ (b + 6) else 0) := by
    intro b hb
    rw [Finset.mem_range] at hb
    by_cases hle : b ≤ B
    · rw [if_pos ((h b hb).mpr hle), if_pos hle, capacity_eq]
    · rw [if_neg hle, if_neg]
      intro hc
      exact hle ((h b hb).mp hc)
  rw [Finset.sum_congr rfl hstep]
  have hsub : Finset.range (B + 1) ⊆ Finset.range BUCKETS :=
    Finset.range_subset.mpr (by omega)
  rw [← Finset.sum_subset hsub]
  · have heq : ∀ b ∈ Finset.range (B + 1),
        (if b ≤ B then 2 ^ (b + 6) else 0) = 2 ^ (b + 6) := by
      intro b hb
      rw [Finset.mem_range] at hb
      rw [if_pos (by omega)]
    rw [Finset.sum_congr rfl heq]
    have := sum_pow_aux (B + 1)
    have hpow : (2 : Nat) ^ (B + 1 + 6) = 2 ^ (B + 7) := rfl
    omega
  · intro b _ hb
    rw [Finset.mem_range] at hb
    rw [if_neg (by omega)]

/-- The bucket of an index lying strictly inside one geometric step. -/
theorem bucket_of_between {k B : Nat} (hk : k ≤ MAX_INDEX)
    (h1 : 2 ^ (B + 6) ≤ k + 64) (h2 : k + 64 < 2 ^ (B + 7)) :
    (Location.new_unchecked k).bucket = B := by
  rw [Location.new_unchecked_eq k hk]
  have h2' : k + 64 < 2 ^ (B + 6 + 1) := by
    have : B + 6 + 1 = B + 7 := by omega
    rw [this]
    exact h2
  have hsz : Nat.size (k + 64) = B + 7 := size_eq_succ h1 h2'
  dsimp only
  omega

theorem small_le_max (k : Nat) (hk : k < 448) : k ≤ MAX_INDEX := by
  rw [MAX_INDEX_eq]
  have : (448 : Nat) + 65 ≤ 2 ^ 63 := by norm_num
  omega

/-- `reserve k` on the empty arena allocates exactly the buckets up to the
bucket of `k` (for `k < 7 * SLOTS`, so saturation at `MAX_INDEX` never
fires). -/
theorem reserve_empty_alloc (k : Nat) (hk : k < 448) :
    ∀ j, ((Arena.empty Unit).reserve k).alloc j =
      decide (j ≤ (Location.new_unchecked k).bucket) := by
  intro j
  show reserveLoop (fun _ => false)
      (Location.new_unchecked (min ((Arena.empty Unit).count + k) MAX_INDEX)).bucket j = _
  have hc : (Arena.empty Unit).count = 0 := rfl
  have hmin : min ((Arena.empty Unit).count + k) MAX_INDEX = k := by
    rw [hc]
    have := small_le_max k hk
    omega
  rw [hmin, reserveLoop_fresh _ _ (fun b' _ => rfl) j, Bool.or_false]

theorem bucket_mono {j k : Nat} (hjk : j ≤ k) (hk : k ≤ MAX_INDEX) :
    (Location.new_unchecked j).bucket ≤ (Location.new_unchecked k).bucket := by
  rw [Location.new_unchecked_eq j (le_trans hjk hk), Location.new_unchecked_eq k hk]
  dsimp only
  have := Nat.size_le_size (Nat.add_le_add_right hjk 64)
  omega

theorem reserve_capacity_value (k : Nat) (hk : k < 448) :
    ((Arena.empty Unit).reserve k).capacity =
      2 ^ ((Location.new_unchecked k).bucket + 7) - 64 := by
  have hle := small_le_max k hk
  refine capacity_of_prefix _ _ (location_in_range k hle).1 ?_
  intro b _
  rw [reserve_empty_alloc k hk b]
  simp

theorem with_capacity_value (k : Nat) (hk : k < 448) :
    (Arena.with_capacity Unit k).capacity =
      2 ^ ((Location.new_unchecked k).bucket + 7) - 64 := by
  have hle := small_le_max k hk
  have hmin : min k MAX_INDEX = k := by omega
  refine capacity_of_prefix _ _ (location_in_range k hle).1 ?_
  intro b _
  show decide (b ≤ (Location.new_unchecked (min k MAX_INDEX)).bucket) = true ↔ _
  rw [hmin]
  simp

theorem reserve_reserve_eq (k j : Nat) (hk : k < 448) (hj : j ≤ k) :
    ((Arena.empty Unit).reserve k).reserve j = (Arena.empty Unit).reserve k := by
  have hle := small_le_max k hk
  have hminj : min (((Arena.empty Unit).reserve k).count + j) MAX_INDEX = j := by
    have hc : ((Arena.empty Unit).reserve k).count = 0 := rfl
    omega
  show { (Arena.empty Unit).reserve k with
      alloc := reserveLoop ((Arena.empty Unit).reserve k).alloc
        (Location.new_unchecked
          (min (((Arena.empty Unit).reserve k).count + j) MAX_INDEX)).bucket } = _
  rw [hminj]
  have halready : ((Arena.empty Unit).reserve k).alloc
      (Location.new_unchecked j).bucket = true := by
    rw [reserve_empty_alloc k hk]
    simp only [decide_eq_true_eq]
    exact bucket_mono hj hle
  rw [reserveLoop_already _ _ halready]

/-- C7: for every `k < 7 * SLOTS`, `Arena::new()` followed by `reserve(k)`
yields the same `capacity()` as `with_capacity(k)` — namely `SLOTS` for
`k < SLOTS`, `3 * SLOTS` for `SLOTS ≤ k < 3 * SLOTS` and `7 * SLOTS` for
`3 * SLOTS ≤ k < 7 * SLOTS` — and a second `reserve(j)` with `j ≤ k` (no
pushes in between) leaves the state, hence `capacity()`, unchanged. -/
theorem reserve_with_capacity_parity (k : Nat) (hk : k < 7 * SLOTS) :
    ((Arena.empty Unit).reserve k).capacity = (Arena.with_capacity Unit k).capacity ∧
    (k < SLOTS → ((Arena.empty Unit).reserve k).capacity = SLOTS) ∧
    (SLOTS ≤ k → k < 3 * SLOTS → ((Arena.empty Unit).reserve k).capacity = 3 * SLOTS) ∧
    (3 * SLOTS ≤ k → ((Arena.empty Unit).reserve k).capacity = 7 * SLOTS) ∧
    (∀ j, j ≤ k →
      (((Arena.empty Unit).reserve k).reserve j).capacity =
        ((Arena.empty Unit).reserve k).capacity) := by
  have hS : SLOTS = 64 := rfl
  have hk448 : k < 448 := by omega
  have hle := small_le_max k hk448
  refine ⟨by rw [reserve_capacity_value k hk448, with_capacity_value k hk448],
    ?_, ?_, ?_, fun j hj => by rw [reserve_reserve_eq k j hk448 hj]⟩
  · intro h
    have hb : (Location.new_unchecked k).bucket = 0 :=
      bucket_of_between hle (by norm_num) (by rw [hS] at h; norm_num; omega)
    rw [reserve_capacity_value k hk448, hb, hS]
    norm_num
  · intro h1 h2
    have hb : (Location.new_unchecked k).bucket = 1 :=
      bucket_of_between hle (by rw [hS] at h1; norm_num; omega)
        (by rw [hS] at h2; norm_num; omega)
    rw [reserve_capacity_value k hk448, hb, hS]
    norm_num
  · intro h1
    have hb : (Location.new_unchecked k).bucket = 2 :=
      bucket_of_between hle (by rw [hS] at h1; norm_num; omega)
        (by norm_num; omega)
    rw [reserve_capacity_value k hk448, hb, hS]
    norm_num

/-- Witness for C7 at `k = 100`: parity with `with_capacity`, value
`3 * SLOTS`, and idempotence of a second `reserve 80`. -/
theorem reserve_with_capacity_parity_witness :
    ((Arena.empty Unit).reserve 100).capacity = (Arena.with_capacity Unit 100).capacity ∧
    ((Arena.empty Unit).reserve 100).capacity = 3 * SLOTS ∧
    (((Arena.empty Unit).reserve 100).reserve 80).capacity =
      ((Arena.empty Unit).reserve 100).capacity := by
  have h := reserve_with_capacity_parity 100 (by norm_num [SLOTS])
  exact ⟨h.1, h.2.2.1 (by norm_num [SLOTS]) (by norm_num [SLOTS]),
    h.2.2.2.2 80 (by norm_num)⟩

/-!
## Publication event order (C1)

The temporal content of the publication protocols is modelled by the list
of memory events one publication emits, in program order (for the
assignment in `Slot::write`, Rust evaluates the right operand — the swap —
before the write to the place).
-/

/-- One memory event of a publication. -/
inductive PubEvent where
  | setMiddle
  | writeNodeValue
  | writeNextField (prev : Option Nat)
  | casFailed
  | updateHead
  | setActive
deriving DecidableEq

/-- `Node::add_child` (`node.rs` lines 105–122; `AtomicIndex::add_child` in
`index.rs` lines 59–70 is the same loop on indices): load the parent's
head, then loop: store the observed head into the child's `next`, then CAS
the parent's head from it to the child.  `initial` is the initially loaded
head and `obs` the heads returned by the failed CAS attempts. -/
def addChildEvents : Option Nat → List (Option Nat) → List PubEvent
  | prev, [] => [.writeNextField prev, .updateHead]
  | prev, p :: rest => .writeNextField prev :: .casFailed :: addChildEvents p rest

/-- `Chunk::write` + `Slot::write` (`arena/slot.rs` lines 104–118 and
218–222), the write path `Arena::add_node` invokes: tag `Middle`, write the
node value into the slot, then execute
`*node.next.0.get_mut() = parent.child.0.swap(index.0.get(), AcqRel)` —
whose right operand, the swap installing the new head, is evaluated before
the store to `node.next` — and finally tag `Active`. -/
def slotWriteEvents (prev : Option Nat) : List PubEvent :=
  [.setMiddle, .writeNodeValue, .updateHead, .writeNextField prev, .setActive]

/-- In every `add_child` run the successful CAS is the last event and is
immediately preceded by the write of the child's `next` field with the
exact head value the CAS publishes. -/
theorem addChildEvents_next_before_head (prev : Option Nat) (obs : List (Option Nat)) :
    ∃ l, addChildEvents prev obs =
      l ++ [.writeNextField (obs.getLastD prev), .updateHead] := by
  induction obs generalizing prev with
  | nil => exact ⟨[], rfl⟩
  | cons p rest ih =>
    obtain ⟨l, hl⟩ := ih p
    refine ⟨.writeNextField prev :: .casFailed :: l, ?_⟩
    show .writeNextField prev :: .casFailed :: addChildEvents p rest = _
    rw [hl, List.getLastD_cons]
    simp

/-- C1 (refuted by the wired write path): in the event trace of the
publication that `Arena::add_node` actually performs (`Slot::write`,
`arena/slot.rs` line 220), the parent's atomic head is updated strictly
before the new node's `next` field is written — the opposite of the
claimed order — whereas the `add_child` protocol the claim describes
(`Node::add_child`, dead code in the current wiring) does write `next`
immediately before the successful CAS. -/
theorem slot_write_updates_head_before_next :
    addChildEvents (some 5) [] = [.writeNextField (some 5), .updateHead] ∧
    slotWriteEvents (some 5) =
      [.setMiddle, .writeNodeValue, .updateHead, .writeNextField (some 5), .setActive] ∧
    (slotWriteEvents (some 5)).indexOf .updateHead <
      (slotWriteEvents (some 5)).indexOf (.writeNextField (some 5)) ∧
    ¬ (slotWriteEvents (some 5)).indexOf (.writeNextField (some 5)) <
        (slotWriteEvents (some 5)).indexOf .updateHead := by
  refine ⟨rfl, rfl, by decide, by decide⟩

/-!
## Arena destruction (C2)

What `Arena::drop` destructs.  The drop glue of one storage cell is that
of `Slot<T> = UnsafeCell<MaybeUninit<Node<T>>>`: `MaybeUninit` never runs
the destructor of its contents, so dropping a cell destructs no payload,
whatever the (externally tracked) slot state is.
-/

/-- First index stored in bucket `b` (`∑_{j<b} capacity j`, which equals
`capacity b - SLOTS`). -/
def bucketStart (b : Nat) : Nat := Location.capacity b - SLOTS

/-- The cells of bucket `b`. -/
def bucketCells (s : Arena T) (b : Nat) : List (SlotCell T) :=
  (List.range (Location.capacity b)).map (fun e => s.slots (bucketStart b + e))

/-- Drop glue of one cell: `Slot<T>` is `UnsafeCell<MaybeUninit<Node<T>>>`
and `MaybeUninit`'s drop glue destructs nothing. -/
def slotDropDestructs (c : SlotCell T) : List T := []

/-- `Bucket::try_dealloc` (`arena/bucket.rs` lines 76–84): dropping
`Box<[Slot<T>]>` runs each element's drop glue, then frees the memory. -/
def tryDeallocDestructs (cells : List (SlotCell T)) : List T :=
  cells.foldr (fun c acc => slotDropDestructs c ++ acc) []

/-- `Arena::drop` (`arena/raw.rs` lines 34–43): `try_dealloc` every
bucket; null buckets are skipped. -/
def arenaDropDestructs (s : Arena T) : List T :=
  (List.range BUCKETS).foldr
    (fun b acc =>
      (if s.alloc b then tryDeallocDestructs (bucketCells s b) else []) ++ acc) []

/-- `Chunk::drop` (`arena/slot.rs` lines 21–34, the historical chunked
slot layout): destruct the payload of every `Init` (Active) cell, once. -/
def chunkDropDestructs : List (SlotCell T) → List T
  | [] => []
  | .active n :: rest => n.value :: chunkDropDestructs rest
  | .uninit :: rest => chunkDropDestructs rest
  | .middle :: rest => chunkDropDestructs rest

theorem tryDeallocDestructs_nil (cells : List (SlotCell T)) :
    tryDeallocDestructs cells = [] := by
  induction cells with
  | nil => rfl
  | cons c rest ih =>
    show slotDropDestructs c ++ tryDeallocDestructs rest = []
    rw [ih]
    rfl

/-- C2 (refuted): the wired drop path (`Arena::drop` → `Bucket::try_dealloc`
over `Slot<T>` cells) destructs no payload at all — for every arena state
it destructs the empty multiset — although after pushing the value 42 the
slot at index 0 is Active; in particular the Active payload 42 is
destructed 0 times, not exactly once.  The historical `Chunk::drop`
(which the claim's cited line range also covers) would have destructed it
exactly once. -/
theorem arena_drop_destructs_nothing :
    (∀ s : Arena Nat, arenaDropDestructs s = []) ∧
    ((Arena.empty Nat).push none 42).2.nodeAt 0 = some ⟨0, none, none, none, 42⟩ ∧
    List.count 42 (arenaDropDestructs ((Arena.empty Nat).push none 42).2) = 0 ∧
    chunkDropDestructs (bucketCells ((Arena.empty Nat).push none 42).2 0) = [42] := by
  have hnil : ∀ s : Arena Nat, arenaDropDestructs s = [] := by
    intro s
    unfold arenaDropDestructs
    generalize List.range BUCKETS = l
    induction l with
    | nil => rfl
    | cons b rest ih =>
      show (if s.alloc b then tryDeallocDestructs (bucketCells s b) else []) ++ _ = []
      rw [tryDeallocDestructs_nil, ite_self, List.nil_append]
      exact ih
  have hcap0 : Location.capacity 0 = 64 := by
    rw [capacity_eq]
    norm_num
  have hbs0 : bucketStart 0 = 0 := by
    unfold bucketStart
    rw [hcap0]
    decide
  refine ⟨hnil, rfl, by rw [hnil]; rfl, ?_⟩
  show chunkDropDestructs ((List.range (Location.capacity 0)).map
    (fun e => (((Arena.empty Nat).push none 42).2).slots (bucketStart 0 + e))) = [42]
  rw [hcap0, hbs0]
  rfl

/-!
## Identity of node references across arenas (C9)

A `&Node<T>` reference is modelled by the slot it points into: the arena
it belongs to (`aid`, distinguishing distinct arena instances in memory)
and the logical index of the slot.  `ptr::eq` between two such references
holds exactly when they denote the same slot of the same arena instance —
distinct arenas occupy disjoint allocations, and within one arena distinct
indices have distinct stable addresses.
-/

/-- A node reference: owning arena instance plus slot index. -/
structure NodeRef where
  aid : Nat
  idx : Nat
deriving DecidableEq

/-- `Arena::contains` (`arena/raw.rs` lines 161–164) of arena `aid` in a
world `w` of arena instances:
`self.get(node.index()).is_some_and(|found| ptr::eq(found, node))` — the
reference `found` returned by `get` denotes slot `⟨aid, r.idx⟩`, and
`ptr::eq(found, node)` is equality of the denoted slots. -/
def containsRef (w : Nat → Arena T) (aid : Nat) (r : NodeRef) : Bool :=
  match (w aid).get r.idx with
  | some _found => decide (NodeRef.mk aid r.idx = r)
  | none => false

/-- `impl AsParent for &Node<T>` (`lib.rs` lines 100–110): look the index
up in this arena; if present and pointer-equal to the given reference,
use it as the parent, otherwise panic "node from foreign arena
inputted". -/
def asParentRef (w : Nat → Arena T) (aid : Nat) (r : NodeRef) :
    Except Err (Option Nat) :=
  match (w aid).get r.idx with
  | some _found =>
    if NodeRef.mk aid r.idx = r then .ok (some r.idx) else .error .foreignParent
  | none => .error .foreignParent

/-- `Arena::push` with a node-reference parent: resolve the reference via
`AsParent`, then push; the resolution panic aborts the push. -/
def pushWithRefParent (w : Nat → Arena T) (aid : Nat) (r : NodeRef) (v : T) :
    Except Err Nat × Arena T :=
  match asParentRef w aid r with
  | .ok p => (w aid).push p v
  | .error e => (.error e, w aid)

/-- A world holding two structurally identical arenas (both contain one
root node of value 7 at index 0). -/
def twinWorld : Nat → Arena Nat := fun _ => ((Arena.empty Nat).push none 7).2

/-- C9: `contains` is true exactly when the reference denotes a published
slot of this very arena instance — identity, not value equality: in
`twinWorld`, arena 0 and arena 1 hold equal nodes at index 0, yet arena 0
contains its own node and not arena 1's — and pushing with a parent
reference that is not contained fails with the ForeignParent panic. -/
theorem contains_identity :
    (∀ (w : Nat → Arena Nat) (aid : Nat) (r : NodeRef),
      containsRef w aid r = true ↔ (r.aid = aid ∧ ((w aid).get r.idx).isSome)) ∧
    (∀ (w : Nat → Arena Nat) (aid : Nat) (r : NodeRef) (v : Nat),
      containsRef w aid r = false →
        (pushWithRefParent w aid r v).1 = .error .foreignParent) ∧
    (twinWorld 0).nodeAt 0 = (twinWorld 1).nodeAt 0 ∧
    containsRef twinWorld 0 ⟨0, 0⟩ = true ∧
    containsRef twinWorld 0 ⟨1, 0⟩ = false := by
  refine ⟨?_, ?_, rfl, by decide, by decide⟩
  · intro w aid r
    unfold containsRef
    cases hg : (w aid).get r.idx with
    | none => simp [hg]
    | some n =>
      simp only [decide_eq_true_eq, Option.isSome_some, and_true]
      constructor
      · intro h
        rw [← h]
      · intro h
        obtain ⟨a, i⟩ := r
        simp only [NodeRef.mk.injEq]
        exact ⟨h.symm, trivial⟩
  · intro w aid r v h
    unfold pushWithRefParent asParentRef
    unfold containsRef at h
    cases hg : (w aid).get r.idx with
    | none => rfl
    | some n =>
      rw [hg] at h
      simp only [decide_eq_false_iff_not] at h
      rw [if_neg h]

/-- Witness for C9: in `twinWorld`, the contains iff at a concrete
reference, and the foreign-parent failure when arena 0 is handed arena 1's
node. -/
theorem contains_identity_witness :
    (containsRef twinWorld 0 ⟨1, 0⟩ = true ↔
      ((1 : Nat) = 0 ∧ ((twinWorld 0).get 0).isSome)) ∧
    (pushWithRefParent twinWorld 0 ⟨1, 0⟩ 9).1 = .error .foreignParent := by
  exact ⟨contains_identity.1 twinWorld 0 ⟨1, 0⟩,
    contains_identity.2.1 twinWorld 0 ⟨1, 0⟩ 9 (by decide)⟩

/-!
## Single-threaded operation scripts and the publication invariant

A script is a sequence of `push`/`reserve` calls executed sequentially
from the empty arena (the single-threaded schedule of the spec).  The
invariant `Inv` characterises every reachable state completely: slot `j`
holds exactly the node the `j`-th successful push published, whose `child`
head is its most recently pushed child and whose `next` is the child of
its parent that was head at its own publication.
-/

/-- One arena call of a script. -/
inductive Op (T : Type) where
  | push (parent : Option Nat) (value : T)
  | reserveOp (additional : Nat)
deriving DecidableEq

def Op.isPush : Op T → Bool
  | .push _ _ => true
  | .reserveOp _ => false

def stepOp (s : Arena T) : Op T → Arena T
  | .push p v => (s.push p v).2
  | .reserveOp k => s.reserve k

def runScript (ops : List (Op T)) : Arena T :=
  ops.foldl stepOp (Arena.empty T)

/-- The `(parent, value)` pairs of the pushes of a script, in order. -/
def pushesOf : List (Op T) → List (Option Nat × T)
  | [] => []
  | .push p v :: rest => (p, v) :: pushesOf rest
  | .reserveOp _ :: rest => pushesOf rest

/-- Number of pushes at script positions before `i`. -/
def pushesBefore (ops : List (Op T)) (i : Nat) : Nat :=
  ((ops.take i).filter (fun o => o.isPush)).length

/-- A script is valid when every push's parent is a node reference the
caller could hold at that point, i.e. an already published index. -/
def validFrom (c : Nat) : List (Op T) → Bool
  | [] => true
  | .push none _ :: rest => validFrom (c + 1) rest
  | .push (some p) _ :: rest => decide (p < c) && validFrom (c + 1) rest
  | .reserveOp _ :: rest => validFrom c rest

/-- Parent recorded for the `j`-th push (`none` also when `j` is out of
range). -/
def parentOfPs (ps : List (Option Nat × T)) (j : Nat) : Option Nat :=
  match ps[j]? with
  | some pv => pv.1
  | none => none

/-- The indices `< c` pushed with parent `p`, most recent first — the
child list of `p` restricted to publications before the `c`-th. -/
def childIndicesUpTo (ps : List (Option Nat × T)) (c : Nat) (p : Nat) : List Nat :=
  ((List.range c).filter (fun j => parentOfPs ps j = some p)).reverse

/-- The node the `j`-th push publishes, with its links at their final
single-threaded values. -/
def expectedNode (ps : List (Option Nat × T)) (j : Nat) (pv : Option Nat × T) : Node T :=
  { index := j
    parent := pv.1
    child := (childIndicesUpTo ps ps.length j).head?
    next :=
      match pv.1 with
      | some p => (childIndicesUpTo ps j p).head?
      | none => none
    value := pv.2 }

/-- The state invariant of single-threaded runs. -/
def Inv (s : Arena T) (ps : List (Option Nat × T)) : Prop :=
  s.index = ps.length ∧
  s.count = ps.length ∧
  (∀ j pv, ps[j]? = some pv → s.slots j = .active (expectedNode ps j pv)) ∧
  (∀ j, ps.length ≤ j → s.slots j = .uninit) ∧
  (∀ (j p : Nat) (v : T), ps[j]? = some (some p, v) → p < j) ∧
  (∀ j pv, ps[j]? = some pv → s.alloc (Location.new_unchecked j).bucket = true)

/-- Reading a node's `child` link (`Node::child`, `node.rs` line 87). -/
def childAt (s : Arena T) (j : Nat) : Option Nat :=
  match s.slots j with
  | .active n => n.child
  | _ => none

/-- Reading a node's `next` link (`Node::next`, `node.rs` line 94). -/
def nextAt (s : Arena T) (j : Nat) : Option Nat :=
  match s.slots j with
  | .active n => n.next
  | _ => none

/-- Walking a `next` chain (the `Next` iterator of `node.rs`), with fuel;
`none` when the fuel runs out before the chain ends. -/
def chainW (s : Arena T) : Nat → Option Nat → Option (List Nat)
  | _, none => some []
  | 0, some _ => none
  | fuel + 1, some j => (chainW s fuel (nextAt s j)).map (fun l => j :: l)

/-- `Node::children` (`node.rs` line 134): the chain starting at the child
head, as indices. -/
def childrenIdx (s : Arena T) (p : Nat) : Option (List Nat) :=
  chainW s s.index (childAt s p)

/-- `Node::children` mapped to the payload values. -/
def childValues (s : Arena T) (p : Nat) : Option (List T) :=
  (childrenIdx s p).map
    (fun l => l.filterMap (fun j => (s.nodeAt j).map (fun n => n.value)))

theorem parentOfPs_append_lt (ps : List (Option Nat × T)) (x : Option Nat × T)
    (j : Nat) (hj : j < ps.length) :
    parentOfPs (ps ++ [x]) j = parentOfPs ps j := by
  unfold parentOfPs
  rw [List.getElem?_append_left hj]

theorem parentOfPs_append_self (ps : List (Option Nat × T)) (x : Option Nat × T) :
    parentOfPs (ps ++ [x]) ps.length = x.1 := by
  unfold parentOfPs
  rw [List.getElem?_concat_length]

theorem childIndicesUpTo_append_le (ps : List (Option Nat × T)) (x : Option Nat × T)
    (c p : Nat) (hc : c ≤ ps.length) :
    childIndicesUpTo (ps ++ [x]) c p = childIndicesUpTo ps c p := by
  unfold childIndicesUpTo
  congr 1
  apply List.filter_congr
  intro j hj
  rw [List.mem_range] at hj
  rw [parentOfPs_append_lt ps x j (by omega)]

theorem childIndicesUpTo_succ (ps : List (Option Nat × T)) (c p : Nat) :
    childIndicesUpTo ps (c + 1) p =
      (if parentOfPs ps c = some p then [c] else []) ++ childIndicesUpTo ps c p := by
  unfold childIndicesUpTo
  rw [List.range_succ, List.filter_append, List.reverse_append]
  congr 1
  by_cases h : parentOfPs ps c = some p <;> simp [h]

theorem childIndicesUpTo_nil_of (ps : List (Option Nat × T)) (c i : Nat)
    (h : ∀ j, j < c → parentOfPs ps j ≠ some i) :
    childIndicesUpTo ps c i = [] := by
  unfold childIndicesUpTo
  rw [List.filter_eq_nil_iff.mpr, List.reverse_nil]
  intro j hj
  rw [List.mem_range] at hj
  simpa using h j hj

theorem expectedNode_append_of_lt (ps : List (Option Nat × T)) (x : Option Nat × T)
    (j : Nat) (pv : Option Nat × T) (hj : j < ps.length) (hx : x.1 ≠ some j) :
    expectedNode (ps ++ [x]) j pv = expectedNode ps j pv := by
  unfold expectedNode
  have hlen : (ps ++ [x]).length = ps.length + 1 := by simp
  have hchild : (childIndicesUpTo (ps ++ [x]) (ps ++ [x]).length j).head? =
      (childIndicesUpTo ps ps.length j).head? := by
    rw [hlen, childIndicesUpTo_succ, parentOfPs_append_self, if_neg hx,
      List.nil_append, childIndicesUpTo_append_le ps x ps.length j le_rfl]
  rw [hchild]
  cases hp : pv.1 with
  | none => rfl
  | some p =>
    dsimp only
    rw [childIndicesUpTo_append_le ps x j p (by omega)]

theorem expectedNode_append_parent (ps : List (Option Nat × T)) (x : Option Nat × T)
    (p : Nat) (pv : Option Nat × T) (hp : p < ps.length) (hx : x.1 = some p) :
    expectedNode (ps ++ [x]) p pv =
      { expectedNode ps p pv with child := some ps.length } := by
  unfold expectedNode
  have hlen : (ps ++ [x]).length = ps.length + 1 := by simp
  have hchild : (childIndicesUpTo (ps ++ [x]) (ps ++ [x]).length p).head? =
      some ps.length := by
    rw [hlen, childIndicesUpTo_succ, parentOfPs_append_self, if_pos hx]
    rfl
  rw [hchild]
  cases hpv : pv.1 with
  | none => rfl
  | some q =>
    dsimp only
    rw [childIndicesUpTo_append_le ps x p q (by omega)]

theorem add_node_root_eq (s : Arena T) (i : Nat) (v : T) :
    s.add_node none i v =
      { slots := fun j => if j = i then .active ⟨i, none, none, none, v⟩ else s.slots j,
        alloc := fun b => b == (Location.new_unchecked i).bucket || s.alloc b,
        index := s.index,
        count := s.count + 1 } := rfl

theorem add_node_child_eq (s : Arena T) (i : Nat) (v : T) (p : Nat) (pn : Node T)
    (hp : s.slots p = .active pn) :
    s.add_node (some p) i v =
      { slots := fun j =>
          if j = i then .active ⟨i, some p, none, pn.child, v⟩
          else if j = p then .active { pn with child := some i }
          else s.slots j,
        alloc := fun b => b == (Location.new_unchecked i).bucket || s.alloc b,
        index := s.index,
        count := s.count + 1 } := by
  unfold Arena.add_node
  dsimp only
  split
  next pn2 heq =>
    have heq2 : s.slots p = .active pn2 := heq
    rw [hp] at heq2
    injection heq2 with h
    subst h
    rfl
  next hne =>
    exact absurd hp (hne pn)

theorem getElem?_some_lt {α} {l : List α} {n : Nat} {a : α}
    (h : l[n]? = some a) : n < l.length := by
  obtain ⟨h1, -⟩ := List.getElem?_eq_some_iff.mp h
  exact h1

theorem parentOfPs_lt (ps : List (Option Nat × T))
    (hpb : ∀ (j p : Nat) (v : T), ps[j]? = some (some p, v) → p < j)
    (j i : Nat) (h : parentOfPs ps j = some i) : i < j := by
  unfold parentOfPs at h
  cases hj : ps[j]? with
  | none => rw [hj] at h; exact Option.noConfusion h
  | some pv =>
    rw [hj] at h
    exact hpb j i pv.2 (by rw [hj]; congr; exact Prod.ext h rfl)

theorem childIndicesUpTo_nil_of_ge (ps : List (Option Nat × T))
    (hpb : ∀ (j p : Nat) (v : T), ps[j]? = some (some p, v) → p < j)
    (c i : Nat) (hci : c ≤ i + 1) : childIndicesUpTo ps c i = [] := by
  apply childIndicesUpTo_nil_of
  intro j hj h
  have := parentOfPs_lt ps hpb j i h
  omega

theorem pushes_bound_append (ps : List (Option Nat × T)) (p? : Option Nat) (v : T)
    (hpb : ∀ (j p : Nat) (v : T), ps[j]? = some (some p, v) → p < j)
    (hval : ∀ p, p? = some p → p < ps.length) :
    ∀ (j p : Nat) (w : T), (ps ++ [(p?, v)])[j]? = some (some p, w) → p < j := by
  intro j p w hj
  have hjlen : j < ps.length + 1 := by
    have := getElem?_some_lt hj
    simpa using this
  by_cases hje : j = ps.length
  · subst hje
    rw [List.getElem?_concat_length] at hj
    injection hj with hj2
    have : p? = some p := by
      have := congrArg Prod.fst hj2
      simpa using this
    exact hval p this
  · rw [List.getElem?_append_left (by omega)] at hj
    exact hpb j p w hj

theorem Inv_push (s : Arena T) (ps : List (Option Nat × T)) (hInv : Inv s ps)
    (p? : Option Nat) (v : T)
    (hval : ∀ p, p? = some p → p < ps.length)
    (hcap : ps.length ≤ MAX_INDEX) :
    Inv (s.push p? v).2 (ps ++ [(p?, v)]) := by
  obtain ⟨hidx, hcnt, hact, hun, hpb, hal⟩ := hInv
  have hle : s.index ≤ MAX_INDEX := by omega
  rw [(Arena.push_ok_proj s p? v hle).2, hidx]
  have hpb' := pushes_bound_append ps p? v hpb hval
  have hlen' : (ps ++ [(p?, v)]).length = ps.length + 1 := by simp
  cases p? with
  | none =>
    rw [add_node_root_eq ({ s with index := ps.length + 1 }) ps.length v]
    refine ⟨by simp, by simp [hcnt], ?_, ?_, hpb', ?_⟩
    · intro j pv hj
      have hjlen : j < ps.length + 1 := by
        have := getElem?_some_lt hj
        omega
      dsimp only
      by_cases hji : j = ps.length
      · subst hji
        rw [List.getElem?_concat_length] at hj
        injection hj with hj2
        subst hj2
        rw [if_pos rfl]
        have hfresh : childIndicesUpTo (ps ++ [((none : Option Nat), v)])
            (ps ++ [((none : Option Nat), v)]).length ps.length = [] := by
          apply childIndicesUpTo_nil_of_ge _ hpb'
          rw [hlen']
        have hexp : expectedNode (ps ++ [((none : Option Nat), v)]) ps.length (none, v) =
            ⟨ps.length, none, none, none, v⟩ := by
          unfold expectedNode
          rw [hfresh]
          rfl
        rw [hexp]
      · have hjlt : j < ps.length := by omega
        rw [List.getElem?_append_left hjlt] at hj
        rw [if_neg hji, hact j pv hj,
          expectedNode_append_of_lt ps _ j pv hjlt (by simp)]
    · intro j hj
      rw [hlen'] at hj
      dsimp only
      rw [if_neg (by omega)]
      exact hun j (by omega)
    · intro j pv hj
      have hjlen : j < ps.length + 1 := by
        have := getElem?_some_lt hj
        omega
      dsimp only
      by_cases hji : j = ps.length
      · subst hji
        simp
      · rw [List.getElem?_append_left (by omega)] at hj
        rw [hal j pv hj]
        simp
  | some p =>
    have hplt : p < ps.length := hval p rfl
    have hpget : ps[p]? = some ps[p] := List.getElem?_eq_getElem hplt
    have hslot : s.slots p = .active (expectedNode ps p ps[p]) := hact p ps[p] hpget
    rw [add_node_child_eq ({ s with index := ps.length + 1 }) ps.length v p
      (expectedNode ps p ps[p]) hslot]
    refine ⟨by simp, by simp [hcnt], ?_, ?_, hpb', ?_⟩
    · intro j pv hj
      have hjlen : j < ps.length + 1 := by
        have := getElem?_some_lt hj
        omega
      dsimp only
      by_cases hji : j = ps.length
      · subst hji
        rw [List.getElem?_concat_length] at hj
        injection hj with hj2
        subst hj2
        rw [if_pos rfl]
        have hfresh : childIndicesUpTo (ps ++ [(some p, v)])
            (ps ++ [(some p, v)]).length ps.length = [] := by
          apply childIndicesUpTo_nil_of_ge _ hpb'
          rw [hlen']
        have hnext : childIndicesUpTo (ps ++ [(some p, v)]) ps.length p =
            childIndicesUpTo ps ps.length p :=
          childIndicesUpTo_append_le ps _ ps.length p le_rfl
        have hexp : expectedNode (ps ++ [(some p, v)]) ps.length (some p, v) =
            ⟨ps.length, some p, none, (childIndicesUpTo ps ps.length p).head?, v⟩ := by
          unfold expectedNode
          rw [hfresh]
          dsimp only
          rw [hnext]
          rfl
        rw [hexp]
        rfl
      · have hjlt : j < ps.length := by omega
        rw [List.getElem?_append_left hjlt] at hj
        rw [if_neg hji]
        by_cases hjp : j = p
        · subst hjp
          have hpv : pv = ps[j] := by
            rw [hpget] at hj
            injection hj with h2
            rw [h2]
          subst hpv
          rw [if_pos rfl,
            expectedNode_append_parent ps (some j, v) j ps[j] hjlt rfl]
        · rw [if_neg hjp, hact j pv hj,
            expectedNode_append_of_lt ps _ j pv hjlt (by simpa using Ne.symm hjp)]
    · intro j hj
      rw [hlen'] at hj
      dsimp only
      rw [if_neg (by omega), if_neg (by omega)]
      exact hun j (by omega)
    · intro j pv hj
      have hjlen : j < ps.length + 1 := by
        have := getElem?_some_lt hj
        omega
      dsimp only
      by_cases hji : j = ps.length
      · subst hji
        simp
      · rw [List.getElem?_append_left (by omega)] at hj
        rw [hal j pv hj]
        simp

theorem reserveLoop_mono : ∀ (b : Nat) (al : Nat → Bool) (j : Nat),
    al j = true → reserveLoop al b j = true := by
  intro b
  induction b with
  | zero =>
    intro al j h
    unfold reserveLoop
    by_cases h0 : al 0 <;> simp [h0, h]
  | succ b ih =>
    intro al j h
    unfold reserveLoop
    by_cases hb : al (b + 1)
    · simp [hb, h]
    · simp only [hb, Bool.false_eq_true, if_false]
      exact ih _ j (by simp [h])

theorem Inv_reserve (s : Arena T) (ps : List (Option Nat × T)) (hInv : Inv s ps)
    (k : Nat) : Inv (s.reserve k) ps := by
  obtain ⟨h1, h2, h3, h4, h5, h6⟩ := hInv
  refine ⟨h1, h2, h3, h4, h5, ?_⟩
  intro j pv hj
  show reserveLoop s.alloc _ _ = true
  exact reserveLoop_mono _ _ _ (h6 j pv hj)

theorem Inv_empty : Inv (Arena.empty T) [] := by
  refine ⟨rfl, rfl, ?_, fun j hj => rfl, ?_, ?_⟩
  · intro j pv hj
    simp at hj
  · intro j p v hj
    simp at hj
  · intro j pv hj
    simp at hj

theorem Inv_runFrom : ∀ (ops : List (Op T)) (s : Arena T) (ps : List (Option Nat × T)),
    Inv s ps → validFrom ps.length ops = true →
    ps.length + (pushesOf ops).length ≤ MAX_INDEX + 1 →
    Inv (ops.foldl stepOp s) (ps ++ pushesOf ops) := by
  intro ops
  induction ops with
  | nil =>
    intro s ps h _ _
    simpa [pushesOf] using h
  | cons o rest ih =>
    intro s ps hInv hval hcap
    cases o with
    | push p? v =>
      have hpo : pushesOf (Op.push p? v :: rest) = (p?, v) :: pushesOf rest := rfl
      rw [hpo] at hcap
      have hcap1 : ps.length ≤ MAX_INDEX := by
        rw [List.length_cons] at hcap
        omega
      have hv : ∀ p, p? = some p → p < ps.length := by
        intro p hp
        subst hp
        have : (decide (p < ps.length) && validFrom (ps.length + 1) rest) = true := hval
        simp only [Bool.and_eq_true, decide_eq_true_eq] at this
        exact this.1
      have hval' : validFrom (ps.length + 1) rest = true := by
        cases p? with
        | none => exact hval
        | some q =>
          have : (decide (q < ps.length) && validFrom (ps.length + 1) rest) = true := hval
          simp only [Bool.and_eq_true] at this
          exact this.2
      have hstep := Inv_push s ps hInv p? v hv hcap1
      have hrest := ih ((s.push p? v).2) (ps ++ [(p?, v)]) hstep
        (by simpa using hval')
        (by rw [List.length_cons] at hcap; simp only [List.length_append,
          List.length_cons, List.length_nil]; omega)
      show Inv (rest.foldl stepOp ((s.push p? v).2)) _
      rw [hpo, List.append_cons]
      exact hrest
    | reserveOp k =>
      have hpo : pushesOf (Op.reserveOp k :: rest) = pushesOf rest := rfl
      rw [hpo] at hcap ⊢
      exact ih (s.reserve k) ps (Inv_reserve s ps hInv k) hval hcap

theorem Inv_runScript (ops : List (Op T)) (hval : validFrom 0 ops = true)
    (hcap : (pushesOf ops).length ≤ MAX_INDEX + 1) :
    Inv (runScript ops) (pushesOf ops) := by
  have h := Inv_runFrom ops (Arena.empty T) [] Inv_empty (by simpa using hval)
    (by simpa using hcap)
  simpa using h

theorem chain_childIndices (s : Arena T) (ps : List (Option Nat × T))
    (hInv : Inv s ps) (p : Nat) :
    ∀ (c : Nat), c ≤ ps.length → ∀ fuel, c ≤ fuel →
      chainW s fuel ((childIndicesUpTo ps c p).head?) =
        some (childIndicesUpTo ps c p) := by
  obtain ⟨hidx, hcnt, hact, hun, hpb, hal⟩ := hInv
  intro c
  induction c with
  | zero =>
    intro _ fuel _
    have h0 : childIndicesUpTo ps 0 p = [] := rfl
    rw [h0]
    cases fuel <;> rfl
  | succ c ih =>
    intro hc fuel hf
    rw [childIndicesUpTo_succ]
    by_cases hpc : parentOfPs ps c = some p
    · rw [if_pos hpc]
      simp only [List.singleton_append, List.head?_cons]
      have hclen : c < ps.length := by omega
      have hcget : ps[c]? = some ps[c] := List.getElem?_eq_getElem hclen
      have hslot := hact c ps[c] hcget
      have hparent : (ps[c]).1 = some p := by
        unfold parentOfPs at hpc
        rw [hcget] at hpc
        exact hpc
      have hnextAt : nextAt s c = (childIndicesUpTo ps c p).head? := by
        unfold nextAt
        rw [hslot]
        unfold expectedNode
        dsimp only
        rw [hparent]
      cases fuel with
      | zero => omega
      | succ f2 =>
        show (chainW s f2 (nextAt s c)).map (fun l => c :: l) = _
        rw [hnextAt, ih (by omega) f2 (by omega)]
        rfl
    · rw [if_neg hpc, List.nil_append]
      exact ih (by omega) fuel (by omega)

theorem childrenIdx_of_inv (s : Arena T) (ps : List (Option Nat × T))
    (hInv : Inv s ps) (p : Nat) (hp : p < ps.length) :
    childrenIdx s p = some (childIndicesUpTo ps ps.length p) := by
  obtain ⟨hidx, hcnt, hact, hun, hpb, hal⟩ := hInv
  unfold childrenIdx
  have hpget : ps[p]? = some ps[p] := List.getElem?_eq_getElem hp
  have hchild : childAt s p = (childIndicesUpTo ps ps.length p).head? := by
    unfold childAt
    rw [hact p ps[p] hpget]
    rfl
  rw [hchild, hidx]
  exact chain_childIndices s ps ⟨hidx, hcnt, hact, hun, hpb, hal⟩ p ps.length
    le_rfl ps.length le_rfl

theorem pair_sublist_range : ∀ (n a b : Nat), a < b → b < n → [a, b] <+ List.range n := by
  intro n
  induction n with
  | zero =>
    intro a b _ hb
    omega
  | succ n ih =>
    intro a b hab hb
    rw [List.range_succ]
    by_cases hbn : b = n
    · subst hbn
      have h1 : [a] <+ List.range b := List.singleton_sublist.mpr (List.mem_range.mpr hab)
      have h2 := List.Sublist.append h1 (List.Sublist.refl [b])
      simpa using h2
    · exact (ih a b hab (by omega)).trans (List.sublist_append_left _ _)

theorem sublist_split_single {α : Type} {a : α} {L : List α} (h : [a] <+ L) :
    ∃ l1 l2, L = l1 ++ a :: l2 :=
  List.append_of_mem (List.singleton_sublist.mp h)

theorem sublist_split_pair {α : Type} {a b : α} {L : List α} (h : [a, b] <+ L) :
    ∃ l1 l2 l3, L = l1 ++ a :: l2 ++ b :: l3 := by
  induction L with
  | nil => exact absurd h (by simp)
  | cons x L ih =>
    cases h with
    | cons _ h2 =>
      obtain ⟨l1, l2, l3, rfl⟩ := ih h2
      exact ⟨x :: l1, l2, l3, rfl⟩
    | cons₂ _ h2 =>
      obtain ⟨l2, l3, rfl⟩ := sublist_split_single h2
      exact ⟨[], l2, l3, rfl⟩

theorem pushesBefore_zero (ops : List (Op T)) : pushesBefore ops 0 = 0 := rfl

theorem pushesBefore_cons_succ (o : Op T) (rest : List (Op T)) (k : Nat) :
    pushesBefore (o :: rest) (k + 1) =
      (if o.isPush then 1 else 0) + pushesBefore rest k := by
  unfold pushesBefore
  rw [List.take_succ_cons, List.filter_cons]
  by_cases h : o.isPush <;> simp [h] <;> omega

theorem pushesOf_getElem : ∀ (ops : List (Op T)) (i : Nat) (pp : Option Nat) (vv : T),
    ops[i]? = some (.push pp vv) →
    (pushesOf ops)[pushesBefore ops i]? = some (pp, vv) := by
  intro ops
  induction ops with
  | nil =>
    intro i pp vv h
    simp at h
  | cons o rest ih =>
    intro i pp vv h
    cases i with
    | zero =>
      rw [List.getElem?_cons_zero] at h
      injection h with h2
      subst h2
      rw [pushesBefore_zero]
      show ((pp, vv) :: pushesOf rest)[0]? = some (pp, vv)
      rw [List.getElem?_cons_zero]
    | succ i =>
      rw [List.getElem?_cons_succ] at h
      have hrec := ih i pp vv h
      rw [pushesBefore_cons_succ]
      cases o with
      | push q w =>
        show ((q, w) :: pushesOf rest)[1 + pushesBefore rest i]? = _
        rw [Nat.add_comm 1 (pushesBefore rest i), List.getElem?_cons_succ]
        exact hrec
      | reserveOp k =>
        show (pushesOf rest)[0 + pushesBefore rest i]? = _
        rw [Nat.zero_add]
        exact hrec

theorem pushesBefore_mono : ∀ (ops : List (Op T)) (ia ib : Nat) (pp : Option Nat) (vv : T),
    ia < ib → ops[ia]? = some (.push pp vv) →
    pushesBefore ops ia < pushesBefore ops ib := by
  intro ops
  induction ops with
  | nil =>
    intro ia ib pp vv _ h
    simp at h
  | cons o rest ih =>
    intro ia ib pp vv hab h
    cases ia with
    | zero =>
      rw [List.getElem?_cons_zero] at h
      injection h with h2
      subst h2
      obtain ⟨j, rfl⟩ : ∃ j, ib = j + 1 := ⟨ib - 1, by omega⟩
      rw [pushesBefore_zero, pushesBefore_cons_succ]
      simp [Op.isPush]
    | succ i =>
      obtain ⟨j, rfl⟩ : ∃ j, ib = j + 1 := ⟨ib - 1, by omega⟩
      rw [List.getElem?_cons_succ] at h
      rw [pushesBefore_cons_succ, pushesBefore_cons_succ]
      have := ih i j pp vv (by omega) h
      omega

theorem valid_parent_lt : ∀ (ops : List (Op T)) (c i p : Nat) (vv : T),
    validFrom c ops = true → ops[i]? = some (.push (some p) vv) →
    p < c + pushesBefore ops i := by
  intro ops
  induction ops with
  | nil =>
    intro c i p vv _ h
    simp at h
  | cons o rest ih =>
    intro c i p vv hval h
    cases i with
    | zero =>
      rw [List.getElem?_cons_zero] at h
      injection h with h2
      subst h2
      have : (decide (p < c) && validFrom (c + 1) rest) = true := hval
      simp only [Bool.and_eq_true, decide_eq_true_eq] at this
      rw [pushesBefore_zero]
      omega
    | succ i =>
      rw [List.getElem?_cons_succ] at h
      rw [pushesBefore_cons_succ]
      cases o with
      | push q w =>
        have hval' : validFrom (c + 1) rest = true := by
          cases q with
          | none => exact hval
          | some q2 =>
            have : (decide (q2 < c) && validFrom (c + 1) rest) = true := hval
            simp only [Bool.and_eq_true] at this
            exact this.2
        have := ih (c + 1) i p vv hval' h
        simp only [Op.isPush, if_pos]
        omega
      | reserveOp k =>
        have := ih c i p vv hval h
        simp only [Op.isPush, Bool.false_eq_true, if_false]
        omega

/-- The concrete scenario script: root "root", then children "one",
"two", "three" under it. -/
def threeKidsScript : List (Op String) :=
  [.push none "root", .push (some 0) "one",
   .push (some 0) "two", .push (some 0) "three"]

/-- C6: under a single-threaded schedule, if node `a` is pushed with
parent `p` strictly before node `b` is pushed with parent `p`, then `b`
precedes `a` in `p.children()` (their indices are `pushesBefore` of the
two script positions); concretely, pushing a root and children "one",
"two", "three" under it gives `count() = 4` and children values
`("three", "two", "one")` in that order. -/
theorem children_reverse_insertion :
    (∀ (T2 : Type) (ops : List (Op T2)) (p ia ib : Nat) (va vb : T2),
      validFrom 0 ops = true →
      (pushesOf ops).length ≤ MAX_INDEX + 1 →
      ia < ib →
      ops[ia]? = some (.push (some p) va) →
      ops[ib]? = some (.push (some p) vb) →
      ∃ l1 l2 l3, childrenIdx (runScript ops) p =
        some (l1 ++ pushesBefore ops ib :: l2 ++ pushesBefore ops ia :: l3)) ∧
    (runScript threeKidsScript).liveCount = 4 ∧
    childValues (runScript threeKidsScript) 0 = some ["three", "two", "one"] := by
  refine ⟨?_, by decide, by decide⟩
  intro T2 ops p ia ib va vb hval hcap hab ha hb
  have hInv := Inv_runScript ops hval hcap
  have hga := pushesOf_getElem ops ia (some p) va ha
  have hgb := pushesOf_getElem ops ib (some p) vb hb
  have hja_lt : pushesBefore ops ia < pushesBefore ops ib :=
    pushesBefore_mono ops ia ib (some p) va hab ha
  have hjb_lt : pushesBefore ops ib < (pushesOf ops).length := getElem?_some_lt hgb
  have hp_lt : p < (pushesOf ops).length := by
    have := valid_parent_lt ops 0 ia p va hval ha
    omega
  have hparenta : parentOfPs (pushesOf ops) (pushesBefore ops ia) = some p := by
    unfold parentOfPs
    rw [hga]
  have hparentb : parentOfPs (pushesOf ops) (pushesBefore ops ib) = some p := by
    unfold parentOfPs
    rw [hgb]
  have h1 : [pushesBefore ops ia, pushesBefore ops ib] <+
      List.range (pushesOf ops).length :=
    pair_sublist_range _ _ _ hja_lt hjb_lt
  have h2 := List.Sublist.filter
    (fun j => decide (parentOfPs (pushesOf ops) j = some p)) h1
  have h3 : List.filter (fun j => decide (parentOfPs (pushesOf ops) j = some p))
      [pushesBefore ops ia, pushesBefore ops ib] =
      [pushesBefore ops ia, pushesBefore ops ib] := by
    rw [List.filter_cons, List.filter_cons]
    simp [hparenta, hparentb]
  rw [h3] at h2
  have h5 : [pushesBefore ops ib, pushesBefore ops ia] <+
      childIndicesUpTo (pushesOf ops) (pushesOf ops).length p := by
    unfold childIndicesUpTo
    have h6 := h2.reverse
    simpa using h6
  obtain ⟨l1, l2, l3, heq⟩ := sublist_split_pair h5
  refine ⟨l1, l2, l3, ?_⟩
  rw [childrenIdx_of_inv (runScript ops) (pushesOf ops) hInv p hp_lt, heq]

/-- Witness for C6: "one" (position 1, index 1) is pushed before "three"
(position 3, index 3) under the root, and index 3 precedes index 1 in the
root's child list. -/
theorem children_reverse_insertion_witness :
    validFrom 0 threeKidsScript = true ∧
    (∃ l1 l2 l3, childrenIdx (runScript threeKidsScript) 0 =
      some (l1 ++ pushesBefore threeKidsScript 3 :: l2 ++
        pushesBefore threeKidsScript 1 :: l3)) := by
  have hcap : (pushesOf threeKidsScript).length ≤ MAX_INDEX + 1 := by
    show 4 ≤ MAX_INDEX + 1
    have := MAX_INDEX_eq
    have h65 : (65 : Nat) + 4 ≤ 2 ^ 63 := by norm_num
    omega
  exact ⟨by decide,
    children_reverse_insertion.1 String threeKidsScript 0 1 3 "one" "three"
      (by decide) hcap (by norm_num) (by decide) (by decide)⟩

theorem get_none_of_uninit (s : Arena T) (j : Nat) (h : s.slots j = .uninit) :
    s.get j = none := by
  unfold Arena.get Arena.nodeAt
  rw [h]
  by_cases ha : s.alloc (Location.new_unchecked j).bucket <;> simp [ha]

/-- C8: `get(index)` is `none` exactly when the slot is not Active:
for every state, `get i` is `none` iff the bucket is unallocated or the
cell does not hold an Active node, and an Active cell in an allocated
bucket is returned as published.  In every reachable state (any valid
script of pushes and reserves), `get` returns the published node for each
pushed index and `none` for every never-published index — whether its
bucket is still unallocated or was allocated by a `reserve` and the slot
is merely Uninit. -/
theorem get_none_iff_not_active :
    (∀ (s : Arena Unit) (i : Nat),
      (s.get i = none ↔
        ¬ (s.alloc (Location.new_unchecked i).bucket = true ∧
           ∃ n, s.slots i = .active n)) ∧
      (∀ n, s.alloc (Location.new_unchecked i).bucket = true →
        s.slots i = .active n → s.get i = some n)) ∧
    (∀ ops : List (Op Unit), validFrom 0 ops = true →
      (pushesOf ops).length ≤ MAX_INDEX + 1 →
      (∀ i pv, (pushesOf ops)[i]? = some pv →
        (runScript ops).get i = some (expectedNode (pushesOf ops) i pv)) ∧
      (∀ i, (pushesOf ops).length ≤ i → (runScript ops).get i = none)) := by
  constructor
  · intro s i
    constructor
    · unfold Arena.get Arena.nodeAt
      by_cases ha : s.alloc (Location.new_unchecked i).bucket
      · simp only [ha, if_true]
        cases hs : s.slots i <;> simp [hs]
      · simp only [ha, Bool.false_eq_true, if_false]
        simp [ha]
    · intro n ha hs
      unfold Arena.get Arena.nodeAt
      rw [if_pos ha, hs]
  · intro ops hval hcap
    obtain ⟨hidx, hcnt, hact, hun, hpb, hal⟩ := Inv_runScript ops hval hcap
    constructor
    · intro i pv hi
      unfold Arena.get Arena.nodeAt
      rw [if_pos (hal i pv hi), hact i pv hi]
    · intro i hi
      exact get_none_of_uninit _ i (hun i hi)

/-- Witness for C8: after pushing one root and reserving 100 slots
(which allocates buckets 0 and 1), index 0 is returned and the reserved
but never written index 1 reads `none`. -/
theorem get_none_iff_not_active_witness :
    (runScript [(.push none () : Op Unit), .reserveOp 100]).get 0 =
      some (expectedNode (pushesOf [(.push none () : Op Unit), .reserveOp 100]) 0
        (none, ())) ∧
    (runScript [(.push none () : Op Unit), .reserveOp 100]).get 1 = none ∧
    (runScript [(.push none () : Op Unit), .reserveOp 100]).alloc 1 = true := by
  have hcap : (pushesOf [(.push none () : Op Unit), .reserveOp 100]).length ≤
      MAX_INDEX + 1 := by
    show 1 ≤ MAX_INDEX + 1
    omega
  have h := get_none_iff_not_active.2 [(.push none () : Op Unit), .reserveOp 100]
    (by decide) hcap
  refine ⟨h.1 0 (none, ()) (by decide), h.2 1 (by decide), by decide⟩

theorem enumFrom_append_single (l : List T) (x : T) :
    ∀ n, List.enumFrom n (l ++ [x]) = List.enumFrom n l ++ [(n + l.length, x)] := by
  induction l with
  | nil =>
    intro n
    simp
  | cons y l ih =>
    intro n
    rw [List.cons_append, List.enumFrom_cons, ih (n + 1), List.enumFrom_cons,
      List.length_cons, List.cons_append]
    have he : n + 1 + l.length = n + (l.length + 1) := by omega
    rw [he]

theorem enum_append_single (l : List T) (x : T) :
    (l ++ [x]).enum = l.enum ++ [(l.length, x)] := by
  have h := enumFrom_append_single l x 0
  rw [Nat.zero_add] at h
  exact h

theorem add_node_count_active (s : Arena T) (p? : Option Nat) (i : Nat) (v : T)
    (hpar : ∀ p, p? = some p → ∃ n, s.slots p = .active n) :
    (s.add_node p? i v).count = s.count + 1 := by
  cases p? with
  | none => rfl
  | some p =>
    obtain ⟨n, hn⟩ := hpar p rfl
    rw [add_node_child_eq s i v p n hn]

theorem add_node_index_eq (s : Arena T) (p? : Option Nat) (i : Nat) (v : T) :
    (s.add_node p? i v).index = s.index := by
  cases p? with
  | none => rfl
  | some p =>
    unfold Arena.add_node
    dsimp only
    split
    · rfl
    · rfl

theorem add_node_slots_other (s : Arena T) (p? : Option Nat) (i : Nat) (v : T)
    (j : Nat) (hpar : ∀ p, p? = some p → ∃ n, s.slots p = .active n)
    (hji : j ≠ i) (hjp : ∀ p, p? = some p → j ≠ p) :
    (s.add_node p? i v).slots j = s.slots j := by
  cases p? with
  | none =>
    show (if j = i then _ else s.slots j) = s.slots j
    rw [if_neg hji]
  | some p =>
    obtain ⟨n, hn⟩ := hpar p rfl
    rw [add_node_child_eq s i v p n hn]
    show (if j = i then _ else if j = p then _ else s.slots j) = s.slots j
    rw [if_neg hji, if_neg (hjp p rfl)]

theorem add_node_keeps_active (s : Arena T) (p? : Option Nat) (i : Nat) (v : T)
    (q : Nat) (hpar : ∀ p, p? = some p → ∃ n, s.slots p = .active n)
    (hq : ∃ n, s.slots q = .active n) :
    ∃ n, (s.add_node p? i v).slots q = .active n := by
  cases p? with
  | none =>
    show ∃ n, (if q = i then SlotCell.active _ else s.slots q) = .active n
    by_cases hqi : q = i
    · rw [if_pos hqi]
      exact ⟨_, rfl⟩
    · rw [if_neg hqi]
      exact hq
  | some p =>
    obtain ⟨n, hn⟩ := hpar p rfl
    rw [add_node_child_eq s i v p n hn]
    show ∃ n2, (if q = i then SlotCell.active _
      else if q = p then SlotCell.active _ else s.slots q) = .active n2
    by_cases hqi : q = i
    · rw [if_pos hqi]
      exact ⟨_, rfl⟩
    · rw [if_neg hqi]
      by_cases hqp : q = p
      · rw [if_pos hqp]
        exact ⟨_, rfl⟩
      · rw [if_neg hqp]
        exact hq

theorem add_node_slots_uninit_keep (s : Arena T) (p? : Option Nat) (i : Nat)
    (v : T) (j : Nat) (hji : j ≠ i) (hu : s.slots j = .uninit) :
    (s.add_node p? i v).slots j = .uninit := by
  cases p? with
  | none =>
    show (if j = i then _ else s.slots j) = _
    rw [if_neg hji]
    exact hu
  | some p =>
    unfold Arena.add_node
    dsimp only
    split
    next pn heq =>
      show (if j = i then _ else if j = p then _ else s.slots j) = _
      rw [if_neg hji]
      by_cases hjp : j = p
      · subst hjp
        rw [heq] at hu
        exact SlotCell.noConfusion hu
      · rw [if_neg hjp]
        exact hu
    next => exact hu

theorem push_all_advance_zero (s : Arena T) (parent : Option Nat) (origin : Nat)
    (values : List T) :
    Arena.push_all_advance s parent origin values 0 = s := rfl

theorem push_all_advance_succ (s : Arena T) (parent : Option Nat) (origin : Nat)
    (values : List T) (k : Nat) (hk : k < values.length) :
    Arena.push_all_advance s parent origin values (k + 1) =
      (Arena.push_all_advance s parent origin values k).add_node parent (origin + k)
        values[k] := by
  unfold Arena.push_all_advance
  rw [List.take_succ, List.getElem?_eq_getElem hk]
  simp only [Option.toList_some]
  rw [enum_append_single, List.length_take, Nat.min_eq_left (Nat.le_of_lt hk),
    List.foldl_append]
  rfl

theorem push_all_advance_props (parent : Option Nat) (values : List T)
    (s1 : Arena T) (origin : Nat)
    (hun : ∀ j, origin ≤ j → s1.slots j = .uninit)
    (hpar : ∀ p, parent = some p → p < origin ∧ ∃ n, s1.slots p = .active n) :
    ∀ k, k ≤ values.length →
      (Arena.push_all_advance s1 parent origin values k).index = s1.index ∧
      (Arena.push_all_advance s1 parent origin values k).count = s1.count + k ∧
      (∀ j, origin + k ≤ j →
        (Arena.push_all_advance s1 parent origin values k).slots j = .uninit) ∧
      (∀ p, parent = some p →
        ∃ n, (Arena.push_all_advance s1 parent origin values k).slots p = .active n) := by
  intro k
  induction k with
  | zero =>
    intro _
    rw [push_all_advance_zero]
    exact ⟨rfl, rfl, fun j hj => hun j (by omega), fun p hp => (hpar p hp).2⟩
  | succ k ih =>
    intro hk1
    obtain ⟨hi, hc, hu, hp⟩ := ih (by omega)
    rw [push_all_advance_succ _ _ _ _ k (by omega)]
    refine ⟨?_, ?_, ?_, ?_⟩
    · rw [add_node_index_eq, hi]
    · rw [add_node_count_active _ _ _ _ hp, hc]
      omega
    · intro j hj
      have hjp : ∀ p, parent = some p → j ≠ p := by
        intro p hpeq
        have := (hpar p hpeq).1
        omega
      rw [add_node_slots_other _ _ _ _ j hp (by omega) hjp]
      exact hu j (by omega)
    · intro p hpeq
      exact add_node_keeps_active _ _ _ _ p hp (hp p hpeq)

theorem foldl_keeps_uninit_below : ∀ (ops2 : List (Op T)) (s : Arena T) (j : Nat),
    j < s.index → s.slots j = .uninit →
    (ops2.foldl stepOp s).slots j = .uninit := by
  intro ops2
  induction ops2 with
  | nil =>
    intro s j _ h
    exact h
  | cons o rest ih =>
    intro s j hj hu
    cases o with
    | push p? v =>
      show (rest.foldl stepOp ((s.push p? v).2)).slots j = .uninit
      by_cases hle : s.index ≤ MAX_INDEX
      · rw [(Arena.push_ok_proj s p? v hle).2]
        have hs2 := add_node_slots_uninit_keep ({ s with index := s.index + 1 })
          p? s.index v j (by omega) hu
        have hidx2 : j < (({ s with index := s.index + 1 } : Arena T).add_node
            p? s.index v).index := by
          rw [add_node_index_eq]
          show j < s.index + 1
          omega
        exact ih _ j hidx2 hs2
      · rw [Arena.push_err s p? v (by omega)]
        exact ih s j hj hu
    | reserveOp k =>
      show (rest.foldl stepOp (s.reserve k)).slots j = .uninit
      exact ih _ j hj hu

/-- C10: the iterator returned by `push_all` publishes lazily: the
reservation step claims all `n` indices (`origin = old counter`, counter
becomes `origin + n`) but writes no slot and leaves `count()` untouched; a
slot is written and the live count incremented only per advance, so after
`k ≤ n` advances `count()` grew by exactly `k`; when the iterator is
dropped there, every remaining reserved index in `[origin + k, origin + n)`
is still Uninit, `get` on it returns `none`, and it stays `none` under any
further pushes and reserves on the arena. -/
theorem push_all_publishes_lazily (s : Arena Unit) (values : List Unit)
    (parent : Option Nat) (k : Nat)
    (hun : ∀ j, s.index ≤ j → s.slots j = .uninit)
    (hpar : ∀ p, parent = some p → p < s.index ∧ ∃ n, s.slots p = .active n)
    (hcap : s.index + values.length ≤ MAX_INDEX)
    (hk : k ≤ values.length) :
    (s.push_all parent values).1 = .ok s.index ∧
    ((s.push_all parent values).2).index = s.index + values.length ∧
    ((s.push_all parent values).2).liveCount = s.liveCount ∧
    (Arena.push_all_advance (s.push_all parent values).2 parent s.index values k).liveCount =
      s.liveCount + k ∧
    (∀ j, s.index + k ≤ j →
      (Arena.push_all_advance (s.push_all parent values).2 parent s.index values k).slots j
          = .uninit ∧
      (Arena.push_all_advance (s.push_all parent values).2 parent s.index values k).get j
          = none) ∧
    (∀ ops2 : List (Op Unit), ∀ j, s.index + k ≤ j → j < s.index + values.length →
      (ops2.foldl stepOp
        (Arena.push_all_advance (s.push_all parent values).2 parent s.index values k)).get j
          = none) := by
  have hres : s.push_all parent values =
      (.ok s.index, { s with index := s.index + values.length }) := by
    unfold Arena.push_all Arena.push_all_reserve
    rw [if_pos hcap]
  rw [hres]
  have hprops := push_all_advance_props parent values
    ({ s with index := s.index + values.length }) s.index hun hpar k hk
  obtain ⟨hi, hc, hu, hp⟩ := hprops
  refine ⟨rfl, rfl, rfl, hc, ?_, ?_⟩
  · intro j hj
    exact ⟨hu j hj, get_none_of_uninit _ j (hu j hj)⟩
  · intro ops2 j hj hjn
    have hidx : j < (Arena.push_all_advance ({ s with index := s.index + values.length })
        parent s.index values k).index := by
      rw [hi]
      show j < s.index + values.length
      omega
    exact get_none_of_uninit _ j
      (foldl_keeps_uninit_below ops2 _ j hidx (hu j hj))

/-- Witness for C10: on the empty arena, `push_all` of three values
advanced once publishes index 0 only; count is 1, index 1 reads `none`,
and still reads `none` after a further root push. -/
theorem push_all_publishes_lazily_witness :
    ((Arena.empty Unit).push_all none [(), (), ()]).1 = .ok 0 ∧
    (Arena.push_all_advance ((Arena.empty Unit).push_all none [(), (), ()]).2 none 0
      [(), (), ()] 1).liveCount = (Arena.empty Unit).liveCount + 1 ∧
    ([(.push none () : Op Unit)].foldl stepOp
      (Arena.push_all_advance ((Arena.empty Unit).push_all none [(), (), ()]).2 none 0
        [(), (), ()] 1)).get 1 = none := by
  have hcap : (Arena.empty Unit).index + ([(), (), ()] : List Unit).length ≤
      MAX_INDEX := by
    show 0 + 3 ≤ MAX_INDEX
    have := MAX_INDEX_eq
    have h65 : (65 : Nat) + 3 ≤ 2 ^ 63 := by norm_num
    omega
  have h := push_all_publishes_lazily (Arena.empty Unit) [(), (), ()] none 1
    (fun j _ => rfl) (fun p hp => Option.noConfusion hp) hcap (by decide)
  exact ⟨h.1, h.2.2.2.1, h.2.2.2.2.2 [.push none ()] 1 (by decide) (by decide)⟩

end Silva
